import Mathlib

/-!
# Verification of the LL(1) grammar-analysis engine (src/grammar.py)

This file gives a shallow embedding of the core of `src/grammar.py`:
the `Grammar` class (constructor validation, `compute_first`,
`compute_follow`, `get_ll1_table`, `is_ll1`), the `LL1Table` class
(`add_cell`, `analyze`) and the `ParseTree` class, and proves the
specified properties about them.

Conventions of the embedding:

* Symbols are `Char` (production bodies in the Python code are strings
  iterated character by character, so every symbol that can occur in a
  body or on the parsing stack is a single character).
* A Python FIRST set, which may contain the empty string as the
  epsilon marker, is modelled as a pair `FSet = List Char × Bool`:
  the (sorted, duplicate-free) list of its real symbols and a flag for
  epsilon membership.  FOLLOW sets never contain epsilon and are plain
  sorted duplicate-free `List Char`.
* Python `dict`s become association lists (`alookup`/`aset`), keeping
  insertion order; Python sets of characters become sorted
  duplicate-free lists so that set equality is plain list equality.
* Raised exceptions become the `PyErr` error type of the `Res` monad:
  `ValueError`, `RepeatedCellError`, `SyntaxError` and `IndexError`
  each have a constructor; the extra constructor `PyErr.fuel` marks
  exhaustion of the fuel that makes the recursions/loops of the Python
  code structurally total, i.e. it models non-termination and is never
  a Python-level outcome.
* Mutable state (the instance-level FIRST/FOLLOW caches, the table
  cells, the parse-tree nodes mutated through shared references) is
  threaded explicitly; parse-tree nodes live in an append-only store
  indexed by allocation order, mirroring Python object identity.
-/

/-- Python exception kinds raised by the engine.  `fuel` marks fuel
exhaustion of the embedding (modelling non-termination), never an
actual Python exception. -/
inductive PyErr where
  | valueErr : String → PyErr
  | repeatedCell : String → PyErr
  | synErr : String → PyErr
  | idxErr : PyErr
  | fuel : PyErr
deriving DecidableEq

/-- Result of a Python computation: a value or a raised exception. -/
abbrev Res (α : Type) := Except PyErr α

instance {α : Type} [DecidableEq α] : DecidableEq (Res α) := fun a b =>
  match a, b with
  | .ok x, .ok y =>
    if h : x = y then .isTrue (by rw [h]) else .isFalse (by intro hc; cases hc; exact h rfl)
  | .error x, .error y =>
    if h : x = y then .isTrue (by rw [h]) else .isFalse (by intro hc; cases hc; exact h rfl)
  | .ok _, .error _ => .isFalse (by intro hc; cases hc)
  | .error _, .ok _ => .isFalse (by intro hc; cases hc)

/-! ## Sorted character sets

Python `set[str]` values of the engine are modelled as strictly sorted
`List Char`, so that two sets are equal exactly when the lists are. -/

/-- Insert a character into a strictly sorted list, keeping it sorted
and duplicate-free. -/
def sinsert (x : Char) : List Char → List Char
  | [] => [x]
  | y :: ys => if x < y then x :: y :: ys else if x = y then y :: ys else y :: sinsert x ys

/-- Set union: insert every element of `b` into `a`. -/
def sunion (a b : List Char) : List Char := b.foldl (fun acc y => sinsert y acc) a

/-- Boolean membership test. -/
def bmem (x : Char) : List Char → Bool
  | [] => false
  | y :: ys => if x = y then true else bmem x ys

/-- Boolean subset test (`set.issubset`). -/
def bsubset (a b : List Char) : Bool := a.all (fun x => bmem x b)

/-- Strictly sorted (hence duplicate-free) predicate. -/
def SChain (l : List Char) : Prop := List.Chain' (· < ·) l

instance (l : List Char) : Decidable (SChain l) := by
  unfold SChain; infer_instance

theorem mem_sinsert {x y : Char} {l : List Char} :
    y ∈ sinsert x l ↔ y = x ∨ y ∈ l := by
  induction l with
  | nil => simp [sinsert]
  | cons z zs ih =>
    by_cases h1 : x < z
    · simp [sinsert, h1]
    · by_cases h2 : x = z
      · subst h2
        simp only [sinsert, h1, if_false, if_pos rfl]
        constructor
        · intro h; exact Or.inr h
        · rintro (rfl | h) <;> simp_all
      · simp only [sinsert, h1, if_false, h2, List.mem_cons, ih]
        tauto

theorem mem_sunion {x : Char} {a b : List Char} :
    x ∈ sunion a b ↔ x ∈ a ∨ x ∈ b := by
  induction b generalizing a with
  | nil => simp [sunion]
  | cons y ys ih =>
    show x ∈ sunion (sinsert y a) ys ↔ _
    rw [ih, mem_sinsert]
    simp only [List.mem_cons]
    tauto

theorem sinsert_head (x : Char) (l : List Char) :
    (sinsert x l).head? = some x ∨ (sinsert x l).head? = l.head? := by
  cases l with
  | nil => simp [sinsert]
  | cons y ys =>
    by_cases h1 : x < y
    · simp [sinsert, h1]
    · by_cases h2 : x = y
      · simp [sinsert, h1, h2]
      · simp [sinsert, h1, h2]

theorem schain_sinsert {x : Char} {l : List Char} (h : SChain l) :
    SChain (sinsert x l) := by
  induction l with
  | nil => simp [sinsert, SChain]
  | cons y ys ih =>
    have hys : SChain ys := (List.chain'_cons'.mp h).2
    by_cases h1 : x < y
    · simp only [sinsert, h1, if_true]
      exact List.Chain'.cons h1 h
    · by_cases h2 : x = y
      · simpa [sinsert, h1, h2] using h
      · have hyx : y < x := by
          rcases lt_trichotomy x y with h' | h' | h'
          · exact absurd h' h1
          · exact absurd h' h2
          · exact h'
        simp only [sinsert, h1, if_false, h2]
        rw [SChain, List.chain'_cons']
        refine ⟨?_, ih hys⟩
        intro z hz
        rcases sinsert_head x ys with hh | hh
        · rw [hh] at hz; cases hz; exact hyx
        · rw [hh] at hz
          exact (List.chain'_cons'.mp h).1 z hz

theorem schain_sunion {a b : List Char} (h : SChain a) : SChain (sunion a b) := by
  induction b generalizing a with
  | nil => exact h
  | cons y ys ih => exact ih (schain_sinsert h)

theorem bmem_iff {x : Char} {l : List Char} : bmem x l = true ↔ x ∈ l := by
  induction l with
  | nil => simp [bmem]
  | cons y ys ih =>
    by_cases h : x = y
    · simp [bmem, h]
    · simp [bmem, h, ih]

theorem bsubset_iff {a b : List Char} : bsubset a b = true ↔ ∀ x ∈ a, x ∈ b := by
  simp [bsubset, List.all_eq_true, bmem_iff]

/-! ## Association lists (Python dicts) -/

/-- Dictionary lookup (first match; keys are unique in all our uses). -/
def alookup {α : Type} : List (Char × α) → Char → Option α
  | [], _ => none
  | (k, v) :: r, x => if x = k then some v else alookup r x

/-- Replace the value stored under an existing key (`d[k] = v` for a
key that is already present); absent keys are left untouched. -/
def aset {α : Type} (c : List (Char × α)) (k : Char) (v : α) : List (Char × α) :=
  c.map (fun e => if e.1 = k then (k, v) else e)

/-! ## The Grammar class (`src/grammar.py`, lines 12-68) -/

/-- A grammar as stored by `Grammar.__init__` after validation:
terminal and non-terminal symbol sets (kept as lists to model the
iteration order of the Python sets), the production dictionary
(non-terminal → list of production bodies, each body the list of
characters of the Python body string), and the start symbol (called
`axiom` in the source; renamed because that word is reserved here). -/
structure Grammar where
  terminals : List Char
  nonTerminals : List Char
  productions : List (Char × List (List Char))
  axm : Char
deriving DecidableEq

/-- `Grammar.__init__`: the four validation checks, in source order,
each raising `ValueError` with the source's message. -/
def mkGrammar (terminals nonTerminals : List Char)
    (productions : List (Char × List (List Char))) (axm : Char) : Res Grammar :=
  if terminals.any (fun t => bmem t nonTerminals) then
    .error (.valueErr "Intersection between terminals and non terminals must be empty.")
  else if ¬ bmem axm nonTerminals then
    .error (.valueErr "Axiom must be included in the set of non terminals.")
  else if ¬ ((productions.all (fun e => bmem e.1 nonTerminals)) &&
             (nonTerminals.all (fun nt => productions.any (fun e => e.1 = nt)))) then
    .error (.valueErr "Set of non-terminals and productions keys should be equal.")
  else match productions.findSome? (fun e =>
      if e.2.isEmpty then some (PyErr.valueErr "No production rules for non terminal symbol")
      else e.2.findSome? (fun body => body.findSome? (fun s =>
        if ¬ (bmem s nonTerminals || bmem s terminals) then
          some (PyErr.valueErr "Invalid symbol.")
        else none))) with
  | some e => .error e
  | none => .ok ⟨terminals, nonTerminals, productions, axm⟩

/-- The five rejection conditions of the specification, stated
declaratively (order-independent). -/
def BadGrammarInput (terminals nonTerminals : List Char)
    (productions : List (Char × List (List Char))) (axm : Char) : Prop :=
  (∃ x, x ∈ terminals ∧ x ∈ nonTerminals) ∨
  axm ∉ nonTerminals ∨
  ¬ (∀ x, (∃ e ∈ productions, e.1 = x) ↔ x ∈ nonTerminals) ∨
  (∃ e ∈ productions, ∃ body ∈ e.2, ∃ s ∈ body, s ∉ terminals ∧ s ∉ nonTerminals) ∨
  (∃ e ∈ productions, e.2 = [])

/-- All bodies of all productions are made of declared symbols, and no
non-terminal has an empty body list (the last `__init__` check). -/
def bodiesOk (g : Grammar) : Prop :=
  ∀ e ∈ g.productions, e.2 ≠ [] ∧
    ∀ body ∈ e.2, ∀ s ∈ body, s ∈ g.terminals ∨ s ∈ g.nonTerminals

/-- A grammar value that `Grammar.__init__` would have accepted, with
the uniqueness facts guaranteed by Python `set`/`dict` (distinct set
elements, distinct dict keys). -/
def GramWF (g : Grammar) : Prop :=
  (∀ x ∈ g.terminals, x ∉ g.nonTerminals) ∧
  g.axm ∈ g.nonTerminals ∧
  (∀ e ∈ g.productions, e.1 ∈ g.nonTerminals) ∧
  (∀ x ∈ g.nonTerminals, ∃ e ∈ g.productions, e.1 = x) ∧
  bodiesOk g ∧
  g.terminals.Nodup ∧ g.nonTerminals.Nodup ∧ (g.productions.map Prod.fst).Nodup

instance (g : Grammar) : Decidable (bodiesOk g) := by
  unfold bodiesOk; infer_instance

instance (g : Grammar) : Decidable (GramWF g) := by
  unfold GramWF; infer_instance

/-! ## FIRST sets (`Grammar.compute_first`, lines 81-123) -/

/-- A Python FIRST set: real symbols (sorted, duplicate-free) together
with the epsilon flag (`'' in s` in Python). -/
abbrev FSet := List Char × Bool

/-- Union of two FIRST sets, epsilon included. -/
def funion (a b : FSet) : FSet := (sunion a.1 b.1, a.2 || b.2)

/-- The per-instance cache `self.first_cache` (dict non-terminal →
FIRST set, in insertion order). -/
abbrev FirstCache := List (Char × FSet)

/-- Bodies of a non-terminal (`self.productions[symbol]`; the key is
present whenever the grammar was validated). -/
def prodsOf (g : Grammar) (s : Char) : List (List Char) :=
  (alookup g.productions s).getD []

mutual
/-- The inner `_first(seq)` of `compute_first`: scan the sequence left
to right; a terminal is added and stops the scan; a non-terminal is
resolved through the cache (populating it on a miss), contributes its
FIRST minus epsilon, and stops the scan unless nullable; reaching the
end of the sequence (or an empty sequence) contributes epsilon.  The
fuel argument only bounds the recursion depth of the embedding
(`PyErr.fuel` on exhaustion); it models no Python behaviour. -/
def firstSeq (g : Grammar) : Nat → FirstCache → List Char → Res (FSet × FirstCache)
  | 0, _, _ => .error .fuel
  | _+1, c, [] => .ok (([], true), c)
  | fuel+1, c, s :: rest =>
    if bmem s g.terminals then .ok (([s], false), c)
    else if bmem s g.nonTerminals then
      match firstNT g fuel c s with
      | .error e => .error e
      | .ok c1 =>
        match alookup c1 s with
        | none => .error .idxErr
        | some fs =>
          if fs.2 then
            match firstSeq g fuel c1 rest with
            | .error e => .error e
            | .ok (r, c2) => .ok ((sunion fs.1 r.1, r.2), c2)
          else .ok ((fs.1, false), c1)
    else .error (.valueErr "Symbol is neither terminal nor non-terminal.")

/-- Cache population for one non-terminal: on a miss, install an empty
entry first (this is what makes the Python recursion terminate), then
fold its production bodies through `_first`, accumulating into the
entry. -/
def firstNT (g : Grammar) : Nat → FirstCache → Char → Res FirstCache
  | 0, _, _ => .error .fuel
  | fuel+1, c, s =>
    if (alookup c s).isSome then .ok c
    else firstProds g fuel (c ++ [(s, ([], false))]) s (prodsOf g s)

/-- The `for production in self.productions[symbol]` loop of the cache
population: `self.first_cache[symbol].update(_first(production))`. -/
def firstProds (g : Grammar) : Nat → FirstCache → Char → List (List Char) → Res FirstCache
  | 0, _, _, _ => .error .fuel
  | _+1, c, _, [] => .ok c
  | fuel+1, c, s, p :: ps =>
    match firstSeq g fuel c p with
    | .error e => .error e
    | .ok (r, c1) =>
      let cur := (alookup c1 s).getD ([], false)
      firstProds g fuel (aset c1 s (funion cur r)) s ps
end

/-- `Grammar.compute_first(sentence)`: run `_first` against the
instance cache, returning the set and the updated cache. -/
def computeFirst (g : Grammar) (fuel : Nat) (c : FirstCache) (sentence : List Char) :
    Res (FSet × FirstCache) :=
  firstSeq g fuel c sentence

/-! ## FOLLOW sets (`Grammar.compute_follow`, lines 127-181) -/

/-- The per-call FOLLOW cache `self.follow_cache` (dict non-terminal →
set of symbols; never contains epsilon). -/
abbrev FollowCache := List (Char × List Char)

/-- Lines 154-167 of the source: `FIRST*(omega)` computed directly
from the FIRST cache — a non-terminal contributes its cached FIRST
minus epsilon and stops the scan unless nullable, any other symbol is
added and stops the scan, and an empty or fully nullable suffix
contributes epsilon.  The source reads `self.first_cache[sym]`
unguarded; `compute_follow` fills the cache for every non-terminal
first, so the lookup cannot fail and the embedding defaults to the
empty set. -/
def firstStar (c : FirstCache) (g : Grammar) : List Char → FSet
  | [] => ([], true)
  | s :: rest =>
    if bmem s g.nonTerminals then
      let fs := (alookup c s).getD ([], false)
      if fs.2 then funion (fs.1, false) (firstStar c g rest)
      else (fs.1, false)
    else ([s], false)

/-- Lines 169-173: `FOLLOW(A) |= to_add` with the `changed` flag set
only when the union actually adds something (`issubset` test). -/
def followAdd (f : FollowCache) (changed : Bool) (a : Char) (toAdd : List Char) :
    FollowCache × Bool :=
  let cur := (alookup f a).getD []
  if bsubset toAdd cur then (f, changed)
  else (aset f a (sunion cur toAdd), true)

/-- Lines 146-179: the body of the two inner `for` loops, processing
every position of one production body `prod` of head `head`.  At a
non-terminal `A` with suffix `omega`: add `FIRST*(omega) - eps` to
`FOLLOW(A)`, and if epsilon is in `FIRST*(omega)` also add
`FOLLOW(head)` (read after the first update, as the source does). -/
def passBody (g : Grammar) (c : FirstCache) (head : Char) :
    List Char → FollowCache × Bool → FollowCache × Bool
  | [], acc => acc
  | a :: rest, acc =>
    passBody g c head rest
      (if bmem a g.nonTerminals then
        (let fo := firstStar c g rest
         let r1 := followAdd acc.1 acc.2 a fo.1
         if fo.2 then followAdd r1.1 r1.2 a ((alookup r1.1 head).getD []) else r1)
       else acc)

/-- The `for prod in productions` loop of one pass. -/
def passProds (g : Grammar) (c : FirstCache) (head : Char) :
    List (List Char) → FollowCache × Bool → FollowCache × Bool
  | [], acc => acc
  | p :: ps, acc => passProds g c head ps (passBody g c head p acc)

/-- One full pass of the fixed-point loop over every production of
every head, starting with `changed = False`. -/
def onePass (g : Grammar) (c : FirstCache) (f : FollowCache) : FollowCache × Bool :=
  g.productions.foldl (fun acc e => passProds g c e.1 e.2 acc) (f, false)

/-- The `while changed` loop (lines 139-141), with fuel; the fuel is
chosen below so that, as proved later, it is never exhausted. -/
def followLoop (g : Grammar) (c : FirstCache) : Nat → FollowCache → FollowCache
  | 0, f => f
  | fuel+1, f =>
    let (f', changed) := onePass g c f
    if changed then followLoop g c fuel f' else f'

/-- All symbols occurring in any production body. -/
def bodySyms (g : Grammar) : List Char :=
  g.productions.foldl (fun acc e => e.2.foldl (fun acc2 p => sunion acc2 p) acc) []

/-- All symbols occurring in any cached FIRST set. -/
def cacheSyms (c : FirstCache) : List Char :=
  c.foldl (fun acc e => sunion acc e.2.1) []

/-- Finite universe containing every symbol a FOLLOW set can ever
receive: the end-marker, every body symbol and every cached FIRST
symbol. -/
def followUniverse (g : Grammar) (c : FirstCache) : List Char :=
  sinsert '$' (sunion (bodySyms g) (cacheSyms c))

/-- Fuel that provably suffices for the fixed-point loop: one more
than the total number of (non-terminal, symbol) pairs available. -/
def followFuel (g : Grammar) (c : FirstCache) : Nat :=
  g.nonTerminals.length * (followUniverse g c).length + 1

/-- Lines 128-130: `for nt in self.non_terminals: self.compute_first([nt])`. -/
def fillFirstAll (g : Grammar) (fuel : Nat) : FirstCache → List Char → Res FirstCache
  | c, [] => .ok c
  | c, nt :: nts =>
    match firstSeq g fuel c [nt] with
    | .error e => .error e
    | .ok (_, c1) => fillFirstAll g fuel c1 nts

/-- The initial FOLLOW cache of a `compute_follow` call: an empty set
for every non-terminal, then the end-marker added for the start symbol
(lines 136-137; the start symbol is a non-terminal for every validated
grammar, so the `add` targets an existing key). -/
def followInit (g : Grammar) : FollowCache :=
  g.nonTerminals.map (fun nt => (nt, if nt = g.axm then ['$'] else []))

/-- `Grammar.compute_follow(symbol)`: fill the FIRST cache for every
non-terminal, reject a symbol that is not a non-terminal, rebuild the
FOLLOW cache from scratch and run the fixed-point loop, then return
the set cached for `symbol` (plus the final caches, which in Python
live on the instance). -/
def computeFollow (g : Grammar) (fuel : Nat) (sym : Char) (c : FirstCache) :
    Res (List Char × FollowCache × FirstCache) :=
  match fillFirstAll g fuel c g.nonTerminals with
  | .error e => .error e
  | .ok c1 =>
    if bmem sym g.nonTerminals then
      let f1 := followLoop g c1 (followFuel g c1) (followInit g)
      .ok ((alookup f1 sym).getD [], f1, c1)
    else .error (.valueErr "symbol is not a non-terminal")

/-! ## The LL1Table class (`src/grammar.py`, lines 229-362) -/

/-- `LL1Table`: terminal and non-terminal sets and the cell matrix.
The Python `cells` is a dict-of-dicts with every `(nt, t)` key present
and `None` for an empty cell; since the parser reads it through
`dict.get` with a `None` default, it is modelled as a total function
into `Option` (production bodies are stored as `''.join(prod)`, i.e. a
character list). -/
structure LL1Tbl where
  terminals : List Char
  nonTerminals : List Char
  cells : Char → Char → Option (List Char)

/-- `LL1Table.__init__(non_terminals, terminals)`: reject overlapping
symbol sets, start with every cell empty. -/
def mkLL1Tbl (nonTerminals terminals : List Char) : Res LL1Tbl :=
  if terminals.any (fun t => bmem t nonTerminals) then
    .error (.valueErr "Intersection between terminals and non terminals must be empty.")
  else .ok ⟨terminals, nonTerminals, fun _ _ => none⟩

/-- `LL1Table.add_cell`: the three `ValueError` guards in source
order, then `RepeatedCellError` on an already-filled cell, else commit
the body. -/
def addCell (t : LL1Tbl) (nt ter : Char) (body : List Char) : Res LL1Tbl :=
  if ¬ bmem nt t.nonTerminals then
    .error (.valueErr "Trying to add cell for non terminal symbol not included in table.")
  else if ¬ bmem ter t.terminals then
    .error (.valueErr "Trying to add cell for terminal symbol not included in table.")
  else if ¬ body.all (fun x => bmem x t.terminals || bmem x t.nonTerminals) then
    .error (.valueErr "Trying to add cell whose body contains elements that are not either terminals nor non terminals.")
  else match t.cells nt ter with
    | some _ => .error (.repeatedCell "Repeated cell.")
    | none => .ok ⟨t.terminals, t.nonTerminals,
        fun a b => if a = nt then (if b = ter then some body else t.cells a b) else t.cells a b⟩

/-! ## LL(1) table construction (`Grammar.get_ll1_table`, lines 185-226) -/

/-- Lines 190-196: the table's terminal column set — every symbol
occurring in a production body that is not a non-terminal, plus the
end-marker. -/
def computedTerminals (g : Grammar) : List Char :=
  sinsert '$' ((bodySyms g).filter (fun x => ¬ bmem x g.nonTerminals))

/-- `for terminal in ts: table.add_cell(head, terminal, body)` —
the add-cell loop over one set of column symbols. -/
def addCells (t : LL1Tbl) (head : Char) : List Char → List Char → Res LL1Tbl
  | [], _ => .ok t
  | ter :: ters, body =>
    match addCell t head ter body with
    | .error e => .error e
    | .ok t1 => addCells t1 head ters body

/-- Lines 200-220 for a single production `prod` of `head`: compute
`FIRST*(prod)` (through the instance FIRST cache), write a cell for
every terminal in it, and if it contains epsilon also write a cell for
every symbol in `FOLLOW(head)`. -/
def fillProd (g : Grammar) (fuel : Nat) (f : FollowCache) (t : LL1Tbl) (c : FirstCache)
    (head : Char) (prod : List Char) : Res (LL1Tbl × FirstCache) :=
  match firstSeq g fuel c prod with
  | .error e => .error e
  | .ok (fa, c1) =>
    match addCells t head fa.1 prod with
    | .error e => .error e
    | .ok t1 =>
      if fa.2 then
        match addCells t1 head ((alookup f head).getD []) prod with
        | .error e => .error e
        | .ok t2 => .ok (t2, c1)
      else .ok (t1, c1)

/-- The loop over the bodies of one head. -/
def fillHead (g : Grammar) (fuel : Nat) (f : FollowCache) (head : Char) :
    List (List Char) → LL1Tbl → FirstCache → Res (LL1Tbl × FirstCache)
  | [], t, c => .ok (t, c)
  | p :: ps, t, c =>
    match fillProd g fuel f t c head p with
    | .error e => .error e
    | .ok (t1, c1) => fillHead g fuel f head ps t1 c1

/-- The loop over all productions. -/
def fillAll (g : Grammar) (fuel : Nat) (f : FollowCache) :
    List (Char × List (List Char)) → LL1Tbl → FirstCache → Res (LL1Tbl × FirstCache)
  | [], t, c => .ok (t, c)
  | e :: es, t, c =>
    match fillHead g fuel f e.1 e.2 t c with
    | .error e' => .error e'
    | .ok (t1, c1) => fillAll g fuel f es t1 c1

/-- Lines 186-188: `for nt in self.non_terminals: self.compute_follow(nt)`,
threading the instance caches; every iteration rebuilds the FOLLOW
cache from scratch, so the result is the one of the last call. -/
def followAllLoop (g : Grammar) (fuel : Nat) :
    List Char → FirstCache → FollowCache → Res (FollowCache × FirstCache)
  | [], c, f => .ok (f, c)
  | nt :: nts, c, _f =>
    match computeFollow g fuel nt c with
    | .error e => .error e
    | .ok (_, f1, c1) => followAllLoop g fuel nts c1 f1

/-- `Grammar.get_ll1_table`: compute all FOLLOW sets, build the empty
table, fill it; a `RepeatedCellError` from any `add_cell` is caught
and turned into the rejection signal `None` (here `Option.none`);
every other exception propagates. -/
def getLL1Table (g : Grammar) (fuel : Nat) : Res (Option LL1Tbl) :=
  match followAllLoop g fuel g.nonTerminals [] (g.nonTerminals.map (fun nt => (nt, []))) with
  | .error e => .error e
  | .ok (f, c) =>
    match mkLL1Tbl g.nonTerminals (computedTerminals g) with
    | .error e => .error e
    | .ok t0 =>
      match fillAll g fuel f g.productions t0 c with
      | .ok (t, _) => .ok (some t)
      | .error (.repeatedCell _) => .ok none
      | .error e => .error e

/-- `Grammar.is_ll1`: whether `get_ll1_table` returned a table. -/
def isLL1 (g : Grammar) (fuel : Nat) : Res Bool :=
  match getLL1Table g fuel with
  | .error e => .error e
  | .ok o => .ok o.isSome

/-! ## ParseTree and the parsing automaton (`analyze`, lines 297-395) -/

/-- A pure parse tree (`ParseTree` up to its structural `__eq__`):
root label and ordered children. -/
inductive PT where
  | mk (root : Char) (children : List PT)
deriving Repr

/-- Root label of a parse tree. -/
def PT.root : PT → Char
  | .mk r _ => r

/-- Children of a parse tree. -/
def PT.children : PT → List PT
  | .mk _ cs => cs

/-- `ParseTree` objects are mutable and shared by reference between
the tree stack and the children lists, so the automaton's nodes live
in an append-only store indexed by allocation order: a node is its
label plus the store indices of its children. -/
abbrev NodeStore := List (Char × List Nat)

/-- Overwrite the children of node `i` (`current_tree.children = ...`),
keeping the label. -/
def setChildren : NodeStore → Nat → List Nat → NodeStore
  | [], _, _ => []
  | x :: xs, 0, ch => (x.1, ch) :: xs
  | x :: xs, n+1, ch => x :: setChildren xs n ch

/-- Push the symbols of a production body (already reversed) onto the
symbol stack, allocating one fresh tree node per symbol and pushing it
onto the tree stack; `children` collects the fresh node ids with
`insert(0, ...)`, i.e. in left-to-right body order.  Stacks are lists
with the head as the top (`list[-1]` in Python). -/
def pushSyms : List Char → List Char → List Nat → NodeStore → List Nat →
    List Char × List Nat × NodeStore × List Nat
  | [], stk, tr, store, ch => (stk, tr, store, ch)
  | sym :: syms, stk, tr, store, ch =>
    pushSyms syms (sym :: stk) (store.length :: tr) (store ++ [(sym, [])]) (store.length :: ch)

/-- The automaton state: the table (read-only through the loop, kept
here so that the frame property can be stated), the symbol stack, the
parallel tree stack of node ids, and the node store. -/
structure PState where
  tbl : LL1Tbl
  stk : List Char
  tr : List Nat
  store : NodeStore

/-- The `while i < len(input_list)` loop of `LL1Table.analyze`
(lines 316-355).  Per iteration: peek the symbol stack, pop the tree
stack; a terminal or the end-marker must match the current input
symbol (popping the stack and consuming the symbol); a non-terminal is
looked up in the table and replaced by its production body (pushing
fresh child nodes, attaching them to the popped tree node, then
pushing that node back); anything else is a `SyntaxError`.  The final
state is returned alongside the outcome (the Python object state
survives a raised exception).  Fuel guards the embedding against the
non-termination possible when expansions never consume input. -/
def analyzeLoop (fuel : Nat) (st : PState) (input : List Char) : PState × Res Unit :=
  match input with
  | [] => (st, .ok ())
  | cur :: rest =>
    match fuel with
    | 0 => (st, .error .fuel)
    | fuel+1 =>
      match st.stk with
      | [] => (st, .error (.synErr "Stack emptied before input fully consumed"))
      | top :: stkR =>
        match st.tr with
        | [] => (st, .error .idxErr)
        | ct :: trR =>
          if bmem top st.tbl.terminals || top = '$' then
            if top = cur then
              analyzeLoop fuel ⟨st.tbl, stkR, trR, st.store⟩ rest
            else (st, .error (.synErr "Unexpected symbol"))
          else if bmem top st.tbl.nonTerminals then
            match st.tbl.cells top cur with
            | none => (st, .error (.synErr "No rule for non-terminal on current input"))
            | some prod =>
              if prod.isEmpty then
                analyzeLoop fuel ⟨st.tbl, stkR, ct :: trR, setChildren st.store ct []⟩
                  (cur :: rest)
              else
                match pushSyms prod.reverse stkR trR st.store [] with
                | (stk1, tr1, store1, ch) =>
                  analyzeLoop fuel ⟨st.tbl, stk1, ct :: tr1, setChildren store1 ct ch⟩
                    (cur :: rest)
          else (st, .error (.synErr "Invalid symbol on stack"))

/-- Read a node of the store back as a pure tree.  Children ids are
always strictly larger than their parent's id (children are allocated
after the parent), so fuel equal to the store size suffices. -/
def readTree (store : NodeStore) : Nat → Nat → PT
  | 0, i => .mk ((store[i]?).getD ('?', [])).1 []
  | fuel+1, i =>
    let n := (store[i]?).getD ('?', [])
    .mk n.1 (n.2.map (readTree store fuel))

/-- The automaton state at the top of `analyze`: stack `['$', start]`
(`'$'` at the bottom), tree stack `[ParseTree('$'), ParseTree(start)]`
— node 0 is the `'$'` node, node 1 the start node. -/
def initPState (tbl : LL1Tbl) (start : Char) : PState :=
  ⟨tbl, [start, '$'], [1, 0], [('$', []), (start, [])]⟩

/-- `LL1Table.analyze(input_string, start)` in full: run the loop,
then require the symbol stack to be fully consumed, and return the
tree at the bottom of the tree stack (`tree_stack[0]`), or a fresh
`ParseTree(start)` when that stack is empty; the final automaton state
is returned alongside for the frame property. -/
def analyzeSt (tbl : LL1Tbl) (fuel : Nat) (input : List Char) (start : Char) :
    PState × Res PT :=
  match analyzeLoop fuel (initPState tbl start) input with
  | (st, .error e) => (st, .error e)
  | (st, .ok ()) =>
    if st.stk.isEmpty then
      match st.tr.getLast? with
      | some rid => (st, .ok (readTree st.store st.store.length rid))
      | none => (st, .ok (.mk start []))
    else (st, .error (.synErr "Input not fully consumed"))

/-- `LL1Table.analyze`, result only. -/
def analyzeLL (tbl : LL1Tbl) (fuel : Nat) (input : List Char) (start : Char) : Res PT :=
  (analyzeSt tbl fuel input start).2

/-- Concatenation of the leaves of a parse tree, read left to right
(fuel-based recursion over the nested tree; fuel larger than the tree
depth is always used). -/
def ptLeaves : Nat → PT → List Char
  | 0, _ => []
  | _+1, .mk r [] => [r]
  | fuel+1, .mk _ cs => (cs.map (ptLeaves fuel)).flatten

instance : DecidableEq PT := fun a b =>
  match a, b with
  | .mk r cs, .mk r' cs' =>
    if h : r = r' then
      match decEqList cs cs' with
      | .isTrue hc => .isTrue (by rw [h, hc])
      | .isFalse hc => .isFalse (by intro he; cases he; exact hc rfl)
    else .isFalse (by intro he; cases he; exact h rfl)
where
  decEqList : (a b : List PT) → Decidable (a = b)
    | [], [] => .isTrue rfl
    | [], _ :: _ => .isFalse (by intro h; cases h)
    | _ :: _, [] => .isFalse (by intro h; cases h)
    | x :: xs, y :: ys =>
      match instDecidableEqPT x y, decEqList xs ys with
      | .isTrue h1, .isTrue h2 => .isTrue (by rw [h1, h2])
      | .isFalse h1, _ => .isFalse (by intro h; cases h; exact h1 rfl)
      | _, .isFalse h2 => .isFalse (by intro h; cases h; exact h2 rfl)

/-! ## Concrete scenario grammars from the specification -/

/-- The expression grammar `E -> TX; X -> +E | eps; T -> iY | (E);
Y -> *T | eps` with start symbol `E`. -/
def gExpr : Grammar :=
  ⟨['+', '*', 'i', '(', ')'], ['E', 'X', 'T', 'Y'],
   [('E', [['T', 'X']]),
    ('X', [['+', 'E'], []]),
    ('T', [['i', 'Y'], ['(', 'E', ')']]),
    ('Y', [['*', 'T'], []])], 'E'⟩

/-- The scenario grammar `S -> aB; B -> b` with start symbol `S`. -/
def gDemo : Grammar :=
  ⟨['a', 'b'], ['S', 'B'], [('S', [['a', 'B']]), ('B', [['b']])], 'S'⟩

/-- The LL(1) table `gDemo.get_ll1_table()` produces (its cells are
`(S, a) -> aB` and `(B, b) -> b`). -/
def demoTbl : LL1Tbl :=
  match getLL1Table gDemo 30 with
  | .ok (some t) => t
  | _ => ⟨[], [], fun _ _ => none⟩

/-! ## Concrete scenario theorems -/

/-- C4: for the expression grammar, `compute_first(["E"]) = {i, (}`,
`compute_first(["X"]) = {eps, +}`, `compute_follow("E") = {$, )}` and
`compute_follow("X") = {$, )}` (FIRST sets are shown as their sorted
symbol list plus the epsilon flag; FOLLOW sets as their sorted list). -/
theorem expr_grammar_first_follow_scenario :
    (computeFirst gExpr 30 [] ['E']).map Prod.fst = .ok (['(', 'i'], false) ∧
    (computeFirst gExpr 30 [] ['X']).map Prod.fst = .ok (['+'], true) ∧
    (computeFollow gExpr 30 'E' []).map (fun r => r.fst) = .ok ['$', ')'] ∧
    (computeFollow gExpr 30 'X' []).map (fun r => r.fst) = .ok ['$', ')'] := by
  refine ⟨rfl, rfl, rfl, rfl⟩

/-- C1 (failing-input evaluation): the grammar `S -> aB; B -> b` is
LL(1) and its table accepts the input `ab$`, but `analyze` returns the
`ParseTree('$')` node sitting at the bottom of the tree stack — a
single-node tree labelled with the end-marker — not the derivation
tree `S(a, B(b))` promised by the specification. -/
theorem analyze_demo_returns_end_marker_node :
    isLL1 gDemo 30 = .ok true ∧
    analyzeLL demoTbl 50 ['a', 'b', '$'] 'S' = .ok (.mk '$' []) ∧
    analyzeLL demoTbl 50 ['a', 'b', '$'] 'S' ≠
      .ok (.mk 'S' [.mk 'a' [], .mk 'B' [.mk 'b' []]]) := by
  refine ⟨rfl, rfl, ?_⟩
  decide

/-- C2 (failing-input evaluation): the input `ab$` is accepted by the
demo table, yet the concatenated leaves of the returned tree are
`['$']`, not the input sequence. -/
theorem analyze_demo_leaves_not_input :
    (analyzeLL demoTbl 50 ['a', 'b', '$'] 'S').map (ptLeaves 10) = .ok ['$'] ∧
    (['$'] : List Char) ≠ ['a', 'b', '$'] ∧
    (['$'] : List Char) ≠ ['a', 'b'] := by
  refine ⟨rfl, by decide, by decide⟩

/-! ## C8: the constructor's validation -/

/-- C8: `Grammar.__init__` succeeds exactly when none of the five
rejection conditions holds: overlapping terminal/non-terminal sets, an
undeclared start symbol, a production-key set different from the
non-terminal set, an undeclared symbol in some body, or a non-terminal
with an empty list of bodies. -/
theorem mkGrammar_ok_iff_not_bad (terminals nonTerminals : List Char)
    (productions : List (Char × List (List Char))) (axm : Char) :
    (∃ g, mkGrammar terminals nonTerminals productions axm = .ok g) ↔
    ¬ BadGrammarInput terminals nonTerminals productions axm := by
  unfold mkGrammar BadGrammarInput
  by_cases h1 : terminals.any (fun t => bmem t nonTerminals)
  · simp only [h1, if_true]
    constructor
    · rintro ⟨g, hg⟩; cases hg
    · intro hbad
      exfalso; apply hbad
      rcases List.any_eq_true.mp h1 with ⟨x, hx, hb⟩
      exact Or.inl ⟨x, hx, bmem_iff.mp hb⟩
  · simp only [h1, if_false]
    have h1' : ¬ ∃ x, x ∈ terminals ∧ x ∈ nonTerminals := by
      rintro ⟨x, hx, hn⟩
      exact h1 (List.any_eq_true.mpr ⟨x, hx, bmem_iff.mpr hn⟩)
    by_cases h2 : bmem axm nonTerminals
    · simp only [h2, not_true, if_false]
      have h2' : axm ∈ nonTerminals := bmem_iff.mp h2
      by_cases h3 : (productions.all (fun e => bmem e.1 nonTerminals)) &&
          (nonTerminals.all (fun nt => productions.any (fun e => e.1 = nt)))
      · simp only [h3, not_true, if_false]
        have h3' : ∀ x, (∃ e ∈ productions, e.1 = x) ↔ x ∈ nonTerminals := by
          have hsplit := h3
          rw [Bool.and_eq_true] at hsplit
          obtain ⟨ha, hb⟩ := hsplit
          intro x
          constructor
          · rintro ⟨e, he, rfl⟩
            exact bmem_iff.mp (List.all_eq_true.mp ha e he)
          · intro hx
            rcases List.any_eq_true.mp (List.all_eq_true.mp hb x hx) with ⟨e, he, heq⟩
            exact ⟨e, he, of_decide_eq_true heq⟩
        cases hfs : productions.findSome? (fun e =>
            if e.2.isEmpty then some (PyErr.valueErr "No production rules for non terminal symbol")
            else e.2.findSome? (fun body => body.findSome? (fun s =>
              if ¬ (bmem s nonTerminals || bmem s terminals) then
                some (PyErr.valueErr "Invalid symbol.")
              else none))) with
        | none =>
          simp only [hfs]
          constructor
          · intro _
            rw [List.findSome?_eq_none_iff] at hfs
            rintro (hbad | hbad | hbad | hbad | hbad)
            · exact h1' hbad
            · exact hbad h2'
            · exact hbad h3'
            · rcases hbad with ⟨e, he, body, hbody, s, hs, hst, hsn⟩
              have hh := hfs e he
              by_cases hemp : e.2.isEmpty
              · simp [hemp] at hh
              · rw [if_neg hemp] at hh
                rw [List.findSome?_eq_none_iff] at hh
                have hh2 := hh body hbody
                rw [List.findSome?_eq_none_iff] at hh2
                have hh3 := hh2 s hs
                have hcond : ¬ (bmem s nonTerminals || bmem s terminals) = true := by
                  simp only [Bool.or_eq_true, not_or]
                  exact ⟨fun hc => hsn (bmem_iff.mp hc), fun hc => hst (bmem_iff.mp hc)⟩
                rw [if_pos hcond] at hh3
                cases hh3
            · rcases hbad with ⟨e, he, hemp⟩
              have hh := hfs e he
              simp [hemp] at hh
          · intro _; exact ⟨_, rfl⟩
        | some err =>
          simp only [hfs]
          constructor
          · rintro ⟨g, hg⟩; cases hg
          · intro hbad
            exfalso; apply hbad
            rcases List.exists_of_findSome?_eq_some hfs with ⟨p, hp, hpe⟩
            by_cases hemp : p.2.isEmpty
            · exact Or.inr (Or.inr (Or.inr (Or.inr ⟨p, hp, List.isEmpty_iff.mp hemp⟩)))
            · rw [if_neg hemp] at hpe
              rcases List.exists_of_findSome?_eq_some hpe with ⟨body, hbody, hbe⟩
              rcases List.exists_of_findSome?_eq_some hbe with ⟨s, hs, hse⟩
              have hval : ¬ (bmem s nonTerminals || bmem s terminals) = true := by
                intro hc
                rw [if_neg (not_not_intro hc)] at hse
                cases hse
              have hparts : ¬ bmem s nonTerminals = true ∧ ¬ bmem s terminals = true := by
                simpa [not_or] using hval
              refine Or.inr (Or.inr (Or.inr (Or.inl ⟨p, hp, body, hbody, s, hs, ?_, ?_⟩)))
              · exact fun hc => hparts.2 (bmem_iff.mpr hc)
              · exact fun hc => hparts.1 (bmem_iff.mpr hc)
      · simp only [h3, not_false_iff, if_true]
        constructor
        · rintro ⟨g, hg⟩; cases hg
        · intro hbad
          exfalso; apply hbad
          refine Or.inr (Or.inr (Or.inl ?_))
          intro hall
          apply h3
          rw [Bool.and_eq_true]
          constructor
          · exact List.all_eq_true.mpr (fun e he => bmem_iff.mpr ((hall e.1).mp ⟨e, he, rfl⟩))
          · refine List.all_eq_true.mpr (fun nt hnt => ?_)
            rcases (hall nt).mpr hnt with ⟨e, he, heq⟩
            exact List.any_eq_true.mpr ⟨e, he, decide_eq_true heq⟩
    · simp only [h2, not_false_iff, if_true]
      constructor
      · rintro ⟨g, hg⟩; cases hg
      · intro hbad
        exfalso; apply hbad
        exact Or.inr (Or.inl (fun hc => h2 (bmem_iff.mpr hc)))

/-! ## C9: analyze never touches the table -/

/-- The parsing loop threads the table through unchanged: no branch
ever writes to it. -/
theorem analyzeLoop_preserves_tbl (fuel : Nat) :
    ∀ (st : PState) (input : List Char), (analyzeLoop fuel st input).1.tbl = st.tbl := by
  induction fuel with
  | zero =>
    intro st input
    cases input <;> rfl
  | succ n ih =>
    intro st input
    cases input with
    | nil => rfl
    | cons cur rest =>
      simp only [analyzeLoop]
      split
      · rfl
      · split
        · rfl
        · split
          · split
            · exact ih _ _
            · rfl
          · split
            · split
              · rfl
              · split
                · exact ih _ _
                · exact ih _ _
            · rfl

/-- C9: whether `analyze` returns a tree or raises, the automaton
state it leaves behind carries the table it started from — the cells,
terminal set and non-terminal set are untouched — and therefore a
subsequent `analyze` call on that table behaves exactly as a call on
the original table. -/
theorem analyze_leaves_table_unchanged (tbl : LL1Tbl) (fuel : Nat)
    (input : List Char) (start : Char) :
    (analyzeSt tbl fuel input start).1.tbl = tbl ∧
    ∀ (fuel2 : Nat) (input2 : List Char) (start2 : Char),
      analyzeSt (analyzeSt tbl fuel input start).1.tbl fuel2 input2 start2 =
        analyzeSt tbl fuel2 input2 start2 := by
  have hloop := analyzeLoop_preserves_tbl fuel (initPState tbl start) input
  have hmain : (analyzeSt tbl fuel input start).1.tbl = tbl := by
    unfold analyzeSt
    split
    · next st e heq =>
      have : st = (analyzeLoop fuel (initPState tbl start) input).1 := by
        rw [heq]
      rw [this]; exact hloop
    · next st heq =>
      have hst : st = (analyzeLoop fuel (initPState tbl start) input).1 := by
        rw [heq]
      split
      · split
        · simp only; rw [hst]; exact hloop
        · simp only; rw [hst]; exact hloop
      · simp only; rw [hst]; exact hloop
  exact ⟨hmain, fun fuel2 input2 start2 => by rw [hmain]⟩

/-! ## C10: no acceptance without the end-marker -/

/-- Pushing symbols grows both stacks by the same amount and keeps
every symbol already on the symbol stack. -/
theorem pushSyms_spec (syms : List Char) :
    ∀ (stk : List Char) (tr : List Nat) (store : NodeStore) (ch : List Nat),
      (pushSyms syms stk tr store ch).1.length = syms.length + stk.length ∧
      (pushSyms syms stk tr store ch).2.1.length = syms.length + tr.length ∧
      ∀ x ∈ stk, x ∈ (pushSyms syms stk tr store ch).1 := by
  induction syms with
  | nil => intro stk tr store ch; exact ⟨by simp [pushSyms], by simp [pushSyms], fun x hx => by simpa [pushSyms] using hx⟩
  | cons sym syms ih =>
    intro stk tr store ch
    have h := ih (sym :: stk) (store.length :: tr) (store ++ [(sym, [])]) (store.length :: ch)
    refine ⟨?_, ?_, ?_⟩
    · show (pushSyms (sym :: syms) stk tr store ch).1.length = _
      rw [pushSyms]
      rw [h.1]
      simp; omega
    · show (pushSyms (sym :: syms) stk tr store ch).2.1.length = _
      rw [pushSyms]
      rw [h.2.1]
      simp; omega
    · intro x hx
      show x ∈ (pushSyms (sym :: syms) stk tr store ch).1
      rw [pushSyms]
      exact h.2.2 x (List.mem_cons_of_mem _ hx)

/-- Loop invariant for inputs free of the end-marker: as long as `'$'`
sits on the symbol stack and the tree stack is at least as deep as the
symbol stack, the loop can only stop with the invariant intact, raise
a `SyntaxError`, or run out of fuel (model non-termination); it never
pops the bottom `'$'`, because that would require reading `'$'` from
the input. -/
theorem analyzeLoop_no_dollar (fuel : Nat) :
    ∀ (st : PState) (input : List Char),
      '$' ∉ input → '$' ∈ st.stk → st.stk.length ≤ st.tr.length →
      (∃ st', analyzeLoop fuel st input = (st', .ok ()) ∧
        '$' ∈ st'.stk ∧ st'.stk.length ≤ st'.tr.length) ∨
      (∃ st' m, analyzeLoop fuel st input = (st', .error (.synErr m))) ∨
      (∃ st', analyzeLoop fuel st input = (st', .error .fuel)) := by
  induction fuel with
  | zero =>
    intro st input hin hd hlen
    cases input with
    | nil => exact Or.inl ⟨st, rfl, hd, hlen⟩
    | cons cur rest => exact Or.inr (Or.inr ⟨st, rfl⟩)
  | succ n ih =>
    intro st input hin hd hlen
    cases input with
    | nil => exact Or.inl ⟨st, rfl, hd, hlen⟩
    | cons cur rest =>
      have hcur : cur ≠ '$' := fun h => hin (h ▸ List.mem_cons_self cur rest)
      have hrest : '$' ∉ rest := fun h => hin (List.mem_cons_of_mem _ h)
      cases hstk : st.stk with
      | nil => exact absurd (hstk ▸ hd) (List.not_mem_nil '$')
      | cons top stkR =>
        cases htr : st.tr with
        | nil =>
          exfalso
          rw [hstk, htr] at hlen
          simp at hlen
        | cons ct trR =>
          simp only [analyzeLoop, hstk, htr]
          by_cases hterm : (bmem top st.tbl.terminals || top = '$') = true
          · rw [if_pos hterm]
            by_cases hmatch : top = cur
            · rw [if_pos hmatch]
              have hd' : '$' ∈ stkR := by
                have : top ≠ '$' := hmatch ▸ hcur
                rcases List.mem_cons.mp (hstk ▸ hd) with h | h
                · exact absurd h.symm this
                · exact h
              have hlen' : stkR.length ≤ trR.length := by
                rw [hstk, htr] at hlen
                simpa using hlen
              exact ih ⟨st.tbl, stkR, trR, st.store⟩ rest hrest hd' hlen'
            · rw [if_neg hmatch]
              exact Or.inr (Or.inl ⟨st, _, rfl⟩)
          · rw [if_neg hterm]
            have htop : top ≠ '$' := by
              intro h
              apply hterm
              simp [h]
            have hd' : '$' ∈ stkR := by
              rcases List.mem_cons.mp (hstk ▸ hd) with h | h
              · exact absurd h.symm htop
              · exact h
            have hlen' : stkR.length + 1 ≤ trR.length + 1 := by
              rw [hstk, htr] at hlen
              simpa using hlen
            by_cases hnt : bmem top st.tbl.nonTerminals = true
            · rw [if_pos hnt]
              cases hcell : st.tbl.cells top cur with
              | none => exact Or.inr (Or.inl ⟨st, _, rfl⟩)
              | some prod =>
                by_cases hemp : prod.isEmpty = true
                · simp only [hemp, if_true]
                  refine ih _ _ hin hd' ?_
                  simp only [List.length_cons]
                  omega
                · simp only [hemp, if_false]
                  have hp := pushSyms_spec prod.reverse stkR trR st.store []
                  refine ih _ _ hin (hp.2.2 '$' hd') ?_
                  simp only [List.length_cons]
                  rw [hp.1, hp.2.1]
                  omega
            · rw [if_neg hnt]
              exact Or.inr (Or.inl ⟨st, _, rfl⟩)

/-- C10: `analyze` can never succeed on an input without the
end-marker: on any input in which `'$'` does not occur (the empty
string included), every terminating run raises a `SyntaxError`; the
only other possible behaviour is non-termination (`PyErr.fuel`),
reachable only through tables whose expansions never consume input. -/
theorem analyze_requires_end_marker (tbl : LL1Tbl) (fuel : Nat) (input : List Char)
    (start : Char) (h : '$' ∉ input) :
    (∃ m, analyzeLL tbl fuel input start = .error (.synErr m)) ∨
    analyzeLL tbl fuel input start = .error .fuel := by
  have hinit : '$' ∈ (initPState tbl start).stk := by simp [initPState]
  have hlen : (initPState tbl start).stk.length ≤ (initPState tbl start).tr.length := by
    simp [initPState]
  rcases analyzeLoop_no_dollar fuel (initPState tbl start) input h hinit hlen with
    ⟨st', heq, hd, -⟩ | ⟨st', m, heq⟩ | ⟨st', heq⟩
  · left
    refine ⟨"Input not fully consumed", ?_⟩
    unfold analyzeLL analyzeSt
    rw [heq]
    have hne : st'.stk.isEmpty = false := by
      cases hs : st'.stk with
      | nil => rw [hs] at hd; cases hd
      | cons a l => rfl
    simp [hne]
  · left
    exact ⟨m, by unfold analyzeLL analyzeSt; rw [heq]⟩
  · right
    unfold analyzeLL analyzeSt
    rw [heq]

/-- Witness for C10: the demo table rejects the end-marker-free input
`ab` (which the grammar itself derives from `S`). -/
theorem analyze_requires_end_marker_witness :
    '$' ∉ (['a', 'b'] : List Char) ∧
    ((∃ m, analyzeLL demoTbl 50 ['a', 'b'] 'S' = .error (.synErr m)) ∨
      analyzeLL demoTbl 50 ['a', 'b'] 'S' = .error .fuel) :=
  ⟨by decide, analyze_requires_end_marker demoTbl 50 ['a', 'b'] 'S' (by decide)⟩

/-! ## FOLLOW-loop toolkit: monotone growth -/

/-- The set cached for `k` (`self.follow_cache[k]`, empty if absent). -/
def lookupF (f : FollowCache) (k : Char) : List Char := (alookup f k).getD []

theorem alookup_cons {α : Type} (k : Char) (w : α) (r : List (Char × α)) (x : Char) :
    alookup ((k, w) :: r) x = if x = k then some w else alookup r x := rfl

theorem aset_cons {α : Type} (k : Char) (w : α) (r : List (Char × α)) (a : Char) (v : α) :
    aset ((k, w) :: r) a v = (if k = a then (a, v) else (k, w)) :: aset r a v := rfl

theorem alookup_aset {α : Type} (f : List (Char × α)) (a : Char) (v : α) (x : Char) :
    alookup (aset f a v) x =
      if x = a then (alookup f a).map (fun _ => v) else alookup f x := by
  induction f with
  | nil => by_cases h : x = a <;> simp [aset, alookup, h]
  | cons e r ih =>
    obtain ⟨k, w⟩ := e
    rw [aset_cons]
    by_cases hk : k = a
    · subst hk
      rw [if_pos rfl]
      by_cases hx : x = k
      · subst hx
        simp [alookup_cons]
      · simp [alookup_cons, hx, ih]
    · rw [if_neg hk]
      by_cases hx : x = k
      · subst hx
        have hxa : x ≠ a := hk
        simp [alookup_cons, hk, hxa]
      · by_cases hxa : x = a
        · subst hxa
          simp [alookup_cons, hk, hx, ih]
        · simp [alookup_cons, hk, hx, hxa, ih]

theorem aset_map_fst {α : Type} (f : List (Char × α)) (a : Char) (v : α) :
    (aset f a v).map Prod.fst = f.map Prod.fst := by
  unfold aset
  rw [List.map_map]
  apply List.map_congr_left
  intro e _
  by_cases h : e.1 = a
  · simp [h]
  · simp [h]

/-- Pointwise growth of a FOLLOW cache. -/
def fgrow (f f' : FollowCache) : Prop := ∀ k x, x ∈ lookupF f k → x ∈ lookupF f' k

theorem fgrow_refl (f : FollowCache) : fgrow f f := fun _ _ h => h

theorem fgrow_trans {a b c : FollowCache} (h1 : fgrow a b) (h2 : fgrow b c) : fgrow a c :=
  fun k x h => h2 k x (h1 k x h)

theorem followAdd_grow (f : FollowCache) (ch : Bool) (a : Char) (S : List Char) :
    fgrow f (followAdd f ch a S).1 := by
  unfold followAdd
  by_cases hsub : bsubset S ((alookup f a).getD [])
  · rw [if_pos hsub]
    exact fgrow_refl f
  · rw [if_neg hsub]
    intro k x hx
    unfold lookupF at hx ⊢
    rw [alookup_aset]
    by_cases hk : k = a
    · subst hk
      cases hl : alookup f k with
      | none => rw [hl] at hx; cases hx
      | some w =>
        rw [hl] at hx
        simp only [if_pos rfl, hl, Option.map_some, Option.getD_some]
        exact mem_sunion.mpr (Or.inl (by simpa [hl] using hx))
    · rw [if_neg hk]
      exact hx

theorem passBody_cons (g : Grammar) (c : FirstCache) (head a : Char) (rest : List Char)
    (acc : FollowCache × Bool) :
    passBody g c head (a :: rest) acc =
      passBody g c head rest
        (if bmem a g.nonTerminals then
          (let fo := firstStar c g rest
           let r1 := followAdd acc.1 acc.2 a fo.1
           if fo.2 then followAdd r1.1 r1.2 a ((alookup r1.1 head).getD []) else r1)
         else acc) := rfl

theorem passBody_grow (g : Grammar) (c : FirstCache) (head : Char) (body : List Char) :
    ∀ acc : FollowCache × Bool, fgrow acc.1 (passBody g c head body acc).1 := by
  induction body with
  | nil => intro acc; exact fgrow_refl acc.1
  | cons a rest ih =>
    intro acc
    rw [passBody_cons]
    by_cases hnt : bmem a g.nonTerminals = true
    · rw [if_pos hnt]
      have h1 := followAdd_grow acc.1 acc.2 a (firstStar c g rest).1
      by_cases heps : (firstStar c g rest).2 = true
      · simp only [heps, if_true]
        set r1 := followAdd acc.1 acc.2 a (firstStar c g rest).1 with hr1
        have h2 := followAdd_grow r1.1 r1.2 a ((alookup r1.1 head).getD [])
        exact fgrow_trans (fgrow_trans h1 h2) (ih _)
      · simp only [heps, if_false]
        exact fgrow_trans h1 (ih _)
    · rw [if_neg hnt]
      exact ih acc

theorem passProds_grow (g : Grammar) (c : FirstCache) (head : Char) (ps : List (List Char)) :
    ∀ acc : FollowCache × Bool, fgrow acc.1 (passProds g c head ps acc).1 := by
  induction ps with
  | nil => intro acc; exact fgrow_refl acc.1
  | cons p ps ih =>
    intro acc
    exact fgrow_trans (passBody_grow g c head p acc) (ih _)

theorem onePass_grow (g : Grammar) (c : FirstCache) (f : FollowCache) :
    fgrow f (onePass g c f).1 := by
  unfold onePass
  suffices h : ∀ (ps : List (Char × List (List Char))) (acc : FollowCache × Bool),
      fgrow acc.1 ((ps.foldl (fun acc e => passProds g c e.1 e.2 acc) acc)).1 by
    exact h g.productions (f, false)
  intro ps
  induction ps with
  | nil => intro acc; exact fgrow_refl acc.1
  | cons e es ih =>
    intro acc
    exact fgrow_trans (passProds_grow g c e.1 e.2 acc) (ih _)

theorem followLoop_grow (g : Grammar) (c : FirstCache) (fuel : Nat) :
    ∀ f : FollowCache, fgrow f (followLoop g c fuel f) := by
  induction fuel with
  | zero => intro f; exact fgrow_refl f
  | succ n ih =>
    intro f
    show fgrow f (followLoop g c (n+1) f)
    rw [followLoop]
    rcases hop : onePass g c f with ⟨f', changed⟩
    have h1 : fgrow f f' := by
      have := onePass_grow g c f
      rw [hop] at this
      exact this
    cases changed with
    | true => simpa using fgrow_trans h1 (ih f')
    | false => simpa using h1

/-! ## C5: FOLLOW(axiom) always contains the end-marker -/

/-- The initial FOLLOW cache maps the start symbol to the singleton
containing the end-marker. -/
theorem followInit_axm (g : Grammar) (h : g.axm ∈ g.nonTerminals) :
    lookupF (followInit g) g.axm = ['$'] := by
  unfold followInit lookupF
  suffices hh : ∀ l : List Char, g.axm ∈ l →
      alookup (l.map (fun nt => (nt, if nt = g.axm then ['$'] else []))) g.axm = some ['$'] by
    rw [hh _ h]
    rfl
  intro l hl
  induction l with
  | nil => cases hl
  | cons y ys ih =>
    rcases List.mem_cons.mp hl with heq | hm
    · simp [List.map_cons, alookup_cons, heq.symm]
    · by_cases hy : g.axm = y
      · simp [List.map_cons, alookup_cons, hy.symm]
      · simp only [List.map_cons, alookup_cons, if_neg hy]
        exact ih hm

/-- C5: for a validated grammar, whenever `compute_follow` returns,
the cached FOLLOW set of the start symbol contains the end-marker, and
in particular `compute_follow(axiom)` returns a set containing `$`. -/
theorem compute_follow_axm_dollar (g : Grammar) (fuel : Nat) (sym : Char) (c : FirstCache)
    (s : List Char) (f1 : FollowCache) (c1 : FirstCache)
    (hwf : GramWF g) (hok : computeFollow g fuel sym c = .ok (s, f1, c1)) :
    '$' ∈ lookupF f1 g.axm ∧ (sym = g.axm → '$' ∈ s) := by
  unfold computeFollow at hok
  cases hff : fillFirstAll g fuel c g.nonTerminals with
  | error e => rw [hff] at hok; cases hok
  | ok c1' =>
    rw [hff] at hok
    by_cases hsym : bmem sym g.nonTerminals = true
    · simp only [hsym, if_true] at hok
      have hok2 := Except.ok.inj hok
      obtain ⟨hs, hf1, hc1⟩ : ((alookup (followLoop g c1' (followFuel g c1') (followInit g)) sym).getD [] = s ∧
          followLoop g c1' (followFuel g c1') (followInit g) = f1 ∧ c1' = c1) := by
        refine ⟨congrArg Prod.fst hok2, ?_, ?_⟩
        · exact congrArg (fun p => p.2.1) hok2
        · exact congrArg (fun p => p.2.2) hok2
      have hd0 : '$' ∈ lookupF (followInit g) g.axm := by
        rw [followInit_axm g hwf.2.1]
        simp
      have hax : '$' ∈ lookupF (followLoop g c1' (followFuel g c1') (followInit g)) g.axm :=
        followLoop_grow g c1' (followFuel g c1') (followInit g) g.axm '$' hd0
      constructor
      · rw [← hf1]
        exact hax
      · intro hsa
        subst hsa
        rw [← hs]
        exact hax
    · simp only [hsym, Bool.false_eq_true, if_false] at hok
      cases hok

/-- Witness for C5 at the expression grammar. -/
theorem compute_follow_axm_dollar_witness :
    GramWF gExpr ∧
    computeFollow gExpr 30 'E' [] =
      .ok (((computeFollow gExpr 30 'E' []).toOption.getD ([], [], [])).fst,
           ((computeFollow gExpr 30 'E' []).toOption.getD ([], [], [])).snd.fst,
           ((computeFollow gExpr 30 'E' []).toOption.getD ([], [], [])).snd.snd) ∧
    '$' ∈ lookupF (((computeFollow gExpr 30 'E' []).toOption.getD ([], [], [])).snd.fst) gExpr.axm :=
  ⟨by decide, rfl,
    (compute_follow_axm_dollar gExpr 30 'E' [] _ _ _ (by decide) rfl).1⟩

/-! ## C6: the FOLLOW fixed point terminates -/

theorem sinsert_length_ge (x : Char) (l : List Char) :
    l.length ≤ (sinsert x l).length := by
  induction l with
  | nil => simp [sinsert]
  | cons y ys ih =>
    by_cases h1 : x < y
    · simp [sinsert, h1]
    · by_cases h2 : x = y
      · simp [sinsert, h1, h2]
      · simp only [sinsert, h1, if_false, h2, List.length_cons]
        omega

theorem sinsert_length_of_not_mem {x : Char} {l : List Char} (h : x ∉ l) :
    (sinsert x l).length = l.length + 1 := by
  induction l with
  | nil => simp [sinsert]
  | cons y ys ih =>
    have hxy : x ≠ y := fun he => h (he ▸ List.mem_cons_self x ys)
    have hxs : x ∉ ys := fun hm => h (List.mem_cons_of_mem _ hm)
    by_cases h1 : x < y
    · simp [sinsert, h1]
    · simp only [sinsert, h1, if_false, hxy, List.length_cons, ih hxs]

theorem sunion_length_ge (a b : List Char) : a.length ≤ (sunion a b).length := by
  induction b generalizing a with
  | nil => simp [sunion]
  | cons y ys ih =>
    show a.length ≤ (sunion (sinsert y a) ys).length
    exact le_trans (sinsert_length_ge y a) (ih (sinsert y a))

theorem sunion_length_gt {a b : List Char} (h : ∃ x ∈ b, x ∉ a) :
    a.length < (sunion a b).length := by
  induction b generalizing a with
  | nil => rcases h with ⟨x, hx, -⟩; cases hx
  | cons y ys ih =>
    show a.length < (sunion (sinsert y a) ys).length
    rcases h with ⟨x, hxb, hxa⟩
    rcases List.mem_cons.mp hxb with rfl | hxys
    · calc a.length < (sinsert x a).length := by rw [sinsert_length_of_not_mem hxa]; omega
        _ ≤ _ := sunion_length_ge _ ys
    · by_cases hx' : x ∈ sinsert y a
      · have hxy : x = y := by
          rcases mem_sinsert.mp hx' with h' | h'
          · exact h'
          · exact absurd h' hxa
        subst hxy
        calc a.length < (sinsert x a).length := by rw [sinsert_length_of_not_mem hxa]; omega
          _ ≤ _ := sunion_length_ge _ ys
      · exact lt_of_le_of_lt (sinsert_length_ge y a) (ih ⟨x, hxys, hx'⟩)

/-- Total number of cached FOLLOW symbols (the loop's strictly
increasing measure). -/
def ftotal (f : FollowCache) : Nat := (f.map (fun e => e.2.length)).sum

theorem aset_id {α : Type} {f : List (Char × α)} {a : Char} (v : α)
    (h : a ∉ f.map Prod.fst) : aset f a v = f := by
  induction f with
  | nil => rfl
  | cons e r ih =>
    have h1 : e.1 ≠ a := fun he => h (by simp [he])
    have h2 : a ∉ r.map Prod.fst := fun hm => h (by simp [hm])
    obtain ⟨k, w⟩ := e
    rw [aset_cons, if_neg h1, ih h2]

theorem alookup_mem {α : Type} {f : List (Char × α)} {a : Char} {w : α}
    (h : alookup f a = some w) : (a, w) ∈ f := by
  induction f with
  | nil => cases h
  | cons e r ih =>
    obtain ⟨k, u⟩ := e
    rw [alookup_cons] at h
    by_cases hk : a = k
    · rw [if_pos hk] at h
      cases h
      exact hk ▸ List.mem_cons_self _ _
    · rw [if_neg hk] at h
      exact List.mem_cons_of_mem _ (ih h)

theorem mem_keys_alookup {α : Type} {f : List (Char × α)} {a : Char}
    (h : a ∈ f.map Prod.fst) : ∃ w, alookup f a = some w := by
  induction f with
  | nil => cases h
  | cons e r ih =>
    obtain ⟨k, u⟩ := e
    by_cases hk : a = k
    · exact ⟨u, by rw [alookup_cons, if_pos hk]⟩
    · have h2 : a = k ∨ a ∈ r.map Prod.fst := by
        rw [List.map_cons] at h
        exact List.mem_cons.mp h
      rcases h2 with h' | h'
      · exact absurd h' hk
      · rcases ih h' with ⟨w, hw⟩
        exact ⟨w, by rw [alookup_cons, if_neg hk, hw]⟩

theorem mem_aset {α : Type} {f : List (Char × α)} {a : Char} {v : α} {e : Char × α}
    (h : e ∈ aset f a v) : e ∈ f ∨ e = (a, v) := by
  unfold aset at h
  rcases List.mem_map.mp h with ⟨e0, he0, heq⟩
  by_cases hk : e0.1 = a
  · rw [if_pos hk] at heq
    exact Or.inr heq.symm
  · rw [if_neg hk] at heq
    exact Or.inl (heq ▸ he0)

theorem ftotal_aset (f : FollowCache) (a : Char) (v w : List Char)
    (hnd : (f.map Prod.fst).Nodup) (hl : alookup f a = some w) :
    ftotal (aset f a v) + w.length = ftotal f + v.length := by
  induction f with
  | nil => cases hl
  | cons e r ih =>
    obtain ⟨k, u⟩ := e
    rw [alookup_cons] at hl
    have hndc : ((k, u) :: r).map Prod.fst = k :: r.map Prod.fst := rfl
    rw [hndc, List.nodup_cons] at hnd
    have hnd' : (r.map Prod.fst).Nodup := hnd.2
    by_cases hk : a = k
    · rw [if_pos hk] at hl
      cases hl
      have hknr : k ∉ r.map Prod.fst := hnd.1
      rw [aset_cons, if_pos hk.symm, aset_id v (hk ▸ hknr)]
      unfold ftotal
      simp only [List.map_cons, List.sum_cons]
      omega
    · rw [if_neg hk] at hl
      rw [aset_cons, if_neg (fun he => hk he.symm)]
      unfold ftotal at ih ⊢
      simp only [List.map_cons, List.sum_cons]
      have := ih hnd' hl
      omega

theorem foldl_sunion_acc (l : List (List Char)) :
    ∀ (acc : List Char) (x : Char), x ∈ acc → x ∈ l.foldl (fun a p => sunion a p) acc := by
  induction l with
  | nil => intro acc x hx; exact hx
  | cons p ps ih =>
    intro acc x hx
    exact ih (sunion acc p) x (mem_sunion.mpr (Or.inl hx))

theorem foldl_sunion_mem (l : List (List Char)) :
    ∀ (acc : List Char) (p : List Char), p ∈ l → ∀ x ∈ p,
      x ∈ l.foldl (fun a p => sunion a p) acc := by
  induction l with
  | nil => intro _ _ hp; cases hp
  | cons q qs ih =>
    intro acc p hp x hx
    rcases List.mem_cons.mp hp with rfl | hp'
    · exact foldl_sunion_acc qs (sunion acc p) x (mem_sunion.mpr (Or.inr hx))
    · exact ih (sunion acc q) p hp' x hx

theorem bodySyms_fold_acc (ps : List (Char × List (List Char))) :
    ∀ (acc : List Char) (x : Char), x ∈ acc →
      x ∈ ps.foldl (fun acc e => e.2.foldl (fun a p => sunion a p) acc) acc := by
  induction ps with
  | nil => intro acc x hx; exact hx
  | cons e es ih =>
    intro acc x hx
    exact ih _ x (foldl_sunion_acc e.2 acc x hx)

theorem mem_bodySyms_fold (ps : List (Char × List (List Char))) :
    ∀ (acc : List Char), ∀ e ∈ ps, ∀ p ∈ e.2, ∀ x ∈ p,
      x ∈ ps.foldl (fun acc e => e.2.foldl (fun a p => sunion a p) acc) acc := by
  induction ps with
  | nil => intro _ _ he; cases he
  | cons e' es ih =>
    intro acc e he p hp x hx
    rcases List.mem_cons.mp he with rfl | he'
    · exact bodySyms_fold_acc es _ x (foldl_sunion_mem e.2 acc p hp x hx)
    · exact ih _ e he' p hp x hx

/-- Every symbol of every production body is in `bodySyms`. -/
theorem mem_bodySyms (g : Grammar) (e : Char × List (List Char)) (he : e ∈ g.productions)
    (p : List Char) (hp : p ∈ e.2) (x : Char) (hx : x ∈ p) : x ∈ bodySyms g :=
  mem_bodySyms_fold g.productions [] e he p hp x hx

theorem cacheSyms_fold_acc (cs : FirstCache) :
    ∀ (acc : List Char) (x : Char), x ∈ acc →
      x ∈ cs.foldl (fun acc e => sunion acc e.2.1) acc := by
  induction cs with
  | nil => intro acc x hx; exact hx
  | cons e es ih =>
    intro acc x hx
    exact ih _ x (mem_sunion.mpr (Or.inl hx))

/-- Every symbol of every cached FIRST set is in `cacheSyms`. -/
theorem mem_cacheSyms (cs : FirstCache) :
    ∀ (acc : List Char), ∀ e ∈ cs, ∀ x ∈ e.2.1,
      x ∈ cs.foldl (fun acc e => sunion acc e.2.1) acc := by
  induction cs with
  | nil => intro _ _ he; cases he
  | cons e' es ih =>
    intro acc e he x hx
    rcases List.mem_cons.mp he with rfl | he'
    · exact cacheSyms_fold_acc es _ x (mem_sunion.mpr (Or.inr hx))
    · exact ih _ e he' x hx

/-- Symbols produced by `FIRST*` come from the scanned suffix or from
the FIRST cache. -/
theorem firstStar_sub (c : FirstCache) (g : Grammar) :
    ∀ (seq : List Char) (x : Char), x ∈ (firstStar c g seq).1 →
      (x ∈ seq ∧ x ∉ g.nonTerminals) ∨ ∃ e ∈ c, x ∈ e.2.1 := by
  intro seq
  induction seq with
  | nil => intro x hx; cases hx
  | cons s rest ih =>
    intro x hx
    rw [firstStar] at hx
    by_cases hnt : bmem s g.nonTerminals = true
    · rw [if_pos hnt] at hx
      cases hl : alookup c s with
      | none =>
        rw [hl] at hx
        simp only [Option.getD_none] at hx
        by_cases h2 : (([], false) : FSet).2 = true
        · cases h2
        · simp only [funion] at hx
          rw [if_neg h2] at hx
          cases hx
      | some w =>
        rw [hl] at hx
        simp only [Option.getD_some] at hx
        by_cases h2 : w.2 = true
        · rw [if_pos h2] at hx
          rcases mem_sunion.mp hx with hw | hr
          · exact Or.inr ⟨(s, w), alookup_mem hl, hw⟩
          · rcases ih x hr with h | h
            · exact Or.inl ⟨List.mem_cons_of_mem _ h.1, h.2⟩
            · exact Or.inr h
        · rw [if_neg h2] at hx
          exact Or.inr ⟨(s, w), alookup_mem hl, hx⟩
    · rw [if_neg hnt] at hx
      rcases List.mem_singleton.mp hx with rfl
      exact Or.inl ⟨List.mem_cons_self _ _, fun hm => hnt (bmem_iff.mpr hm)⟩

/-- Well-formedness of a FOLLOW cache during the fixed point: its keys
are exactly the non-terminals (in order), every set is sorted, and
every symbol lies in the universe `U`. -/
def FWF (g : Grammar) (U : List Char) (f : FollowCache) : Prop :=
  f.map Prod.fst = g.nonTerminals ∧ (∀ e ∈ f, SChain e.2) ∧ (∀ e ∈ f, ∀ x ∈ e.2, x ∈ U)

/-- Contract of one update step of the fixed-point pass: it preserves
well-formedness, never shrinks the measure, only raises the `changed`
flag, leaves the cache untouched when the flag stays down, and grows
the measure strictly when it raises the flag. -/
def StepOk (g : Grammar) (U : List Char) (p q : FollowCache × Bool) : Prop :=
  FWF g U p.1 →
    FWF g U q.1 ∧
    ftotal p.1 ≤ ftotal q.1 ∧
    (q.2 = p.2 ∨ (p.2 = false ∧ q.2 = true)) ∧
    (q.2 = false → q.1 = p.1) ∧
    (p.2 = false → q.2 = true → ftotal p.1 < ftotal q.1)

theorem stepOk_refl (g : Grammar) (U : List Char) (p : FollowCache × Bool) :
    StepOk g U p p :=
  fun h => ⟨h, le_refl _, Or.inl rfl, fun _ => rfl,
    fun h1 h2 => absurd (h1 ▸ h2) (by simp)⟩

theorem stepOk_comp {g : Grammar} {U : List Char} {p r q : FollowCache × Bool}
    (h1 : StepOk g U p r) (h2 : StepOk g U r q) : StepOk g U p q := by
  intro hp
  obtain ⟨hr, hle1, hfl1, hsm1, hst1⟩ := h1 hp
  obtain ⟨hq, hle2, hfl2, hsm2, hst2⟩ := h2 hr
  refine ⟨hq, le_trans hle1 hle2, ?_, ?_, ?_⟩
  · rcases hfl1 with h | ⟨hp0, hr1⟩
    · rcases hfl2 with h' | ⟨hr0, hq1⟩
      · exact Or.inl (h' ▸ h)
      · exact Or.inr ⟨h ▸ hr0, hq1⟩
    · rcases hfl2 with h' | ⟨hr0, hq1⟩
      · exact Or.inr ⟨hp0, h' ▸ hr1⟩
      · rw [hr1] at hr0; cases hr0
  · intro hq0
    have hr0 : r.2 = false := by
      rcases hfl2 with h' | ⟨hr0, hq1⟩
      · rw [← h', hq0]
      · rw [hq1] at hq0; cases hq0
    rw [hsm2 hq0, hsm1 hr0]
  · intro hp0 hq1
    by_cases hr2 : r.2 = true
    · exact lt_of_lt_of_le (hst1 hp0 hr2) hle2
    · have hr0 : r.2 = false := by
        cases hre : r.2
        · rfl
        · exact absurd hre hr2
      have := hst2 hr0 hq1
      rw [hsm1 hr0] at this
      exact this

/-- One `FOLLOW(A) |= S` update satisfies the step contract, provided
the key is a declared non-terminal and the added symbols stay in the
universe. -/
theorem followAdd_stepok {g : Grammar} {U : List Char} (f : FollowCache) (ch : Bool)
    (a : Char) (S : List Char) (hnd : g.nonTerminals.Nodup) (ha : a ∈ g.nonTerminals)
    (hS : FWF g U f → ∀ x ∈ S, x ∈ U) :
    StepOk g U (f, ch) (followAdd f ch a S) := by
  intro hfwf
  obtain ⟨hkeys, hchain, hbnd⟩ := hfwf
  unfold followAdd
  by_cases hsub : bsubset S ((alookup f a).getD []) = true
  · rw [if_pos hsub]
    exact ⟨⟨hkeys, hchain, hbnd⟩, le_refl _, Or.inl rfl, fun _ => rfl,
      fun h1 h2 => absurd (h1 ▸ h2) (by simp)⟩
  · rw [if_neg hsub]
    have hamem : a ∈ f.map Prod.fst := by rw [hkeys]; exact ha
    obtain ⟨w, hw⟩ := mem_keys_alookup hamem
    have hcur : (alookup f a).getD [] = w := by rw [hw]; rfl
    rw [hcur]
    have hwmem : (a, w) ∈ f := alookup_mem hw
    have hwchain : SChain w := hchain (a, w) hwmem
    have hndk : (f.map Prod.fst).Nodup := by rw [hkeys]; exact hnd
    have hex : ∃ x ∈ S, x ∉ w := by
      by_contra hno
      push_neg at hno
      apply hsub
      rw [hcur]
      exact bsubset_iff.mpr hno
    have hlt : w.length < (sunion w S).length := sunion_length_gt hex
    have htot := ftotal_aset f a (sunion w S) w hndk hw
    have hfwf' : FWF g U (aset f a (sunion w S)) := by
      refine ⟨by rw [aset_map_fst, hkeys], ?_, ?_⟩
      · intro e he
        rcases mem_aset he with he' | rfl
        · exact hchain e he'
        · exact schain_sunion hwchain
      · intro e he x hx
        rcases mem_aset he with he' | rfl
        · exact hbnd e he' x hx
        · rcases mem_sunion.mp hx with hxw | hxS
          · exact hbnd (a, w) hwmem x hxw
          · exact hS ⟨hkeys, hchain, hbnd⟩ x hxS
    refine ⟨hfwf', ?_, ?_, ?_, ?_⟩
    · show ftotal f ≤ ftotal (aset f a (sunion w S))
      omega
    · cases ch
      · exact Or.inr ⟨rfl, rfl⟩
      · exact Or.inl rfl
    · intro hfalse; cases hfalse
    · intro _ _
      show ftotal f < ftotal (aset f a (sunion w S))
      omega

/-- One whole production body satisfies the step contract. -/
theorem passBody_stepok (g : Grammar) (c : FirstCache) (U : List Char) (head : Char)
    (hnd : g.nonTerminals.Nodup) (_hhead : head ∈ g.nonTerminals)
    (hcache : ∀ e ∈ c, ∀ x ∈ e.2.1, x ∈ U) :
    ∀ (body : List Char), (∀ x ∈ body, x ∉ g.nonTerminals → x ∈ U) →
      ∀ acc, StepOk g U acc (passBody g c head body acc) := by
  intro body
  induction body with
  | nil => intro _ acc; exact stepOk_refl g U acc
  | cons a rest ih =>
    intro hbU acc
    rw [passBody_cons]
    have hrestU : ∀ x ∈ rest, x ∉ g.nonTerminals → x ∈ U :=
      fun x hx => hbU x (List.mem_cons_of_mem _ hx)
    by_cases hnt : bmem a g.nonTerminals = true
    · rw [if_pos hnt]
      have hS1 : FWF g U acc.1 → ∀ x ∈ (firstStar c g rest).1, x ∈ U := by
        intro _ x hx
        rcases firstStar_sub c g rest x hx with h | ⟨e, he, hxe⟩
        · exact hrestU x h.1 h.2
        · exact hcache e he x hxe
      have hstep1 := followAdd_stepok acc.1 acc.2 a (firstStar c g rest).1 hnd
        (bmem_iff.mp hnt) hS1
      by_cases heps : (firstStar c g rest).2 = true
      · simp only [heps, if_true]
        set r1 := followAdd acc.1 acc.2 a (firstStar c g rest).1 with hr1
        have hS2 : FWF g U r1.1 → ∀ x ∈ (alookup r1.1 head).getD [], x ∈ U := by
          intro hf x hx
          cases hl : alookup r1.1 head with
          | none => rw [hl] at hx; cases hx
          | some w =>
            rw [hl] at hx
            exact hf.2.2 (head, w) (alookup_mem hl) x hx
        have hstep2 := followAdd_stepok r1.1 r1.2 a ((alookup r1.1 head).getD []) hnd
          (bmem_iff.mp hnt) hS2
        exact stepOk_comp (stepOk_comp hstep1 hstep2) (ih hrestU _)
      · simp only [heps, if_false]
        exact stepOk_comp hstep1 (ih hrestU _)
    · rw [if_neg hnt]
      exact ih hrestU acc

/-- All bodies of one head satisfy the step contract. -/
theorem passProds_stepok (g : Grammar) (c : FirstCache) (U : List Char) (head : Char)
    (hnd : g.nonTerminals.Nodup) (hhead : head ∈ g.nonTerminals)
    (hcache : ∀ e ∈ c, ∀ x ∈ e.2.1, x ∈ U) :
    ∀ (ps : List (List Char)), (∀ p ∈ ps, ∀ x ∈ p, x ∉ g.nonTerminals → x ∈ U) →
      ∀ acc, StepOk g U acc (passProds g c head ps acc) := by
  intro ps
  induction ps with
  | nil => intro _ acc; exact stepOk_refl g U acc
  | cons p ps ih =>
    intro hps acc
    rw [passProds]
    exact stepOk_comp
      (passBody_stepok g c U head hnd hhead hcache p (hps p (List.mem_cons_self _ _)) acc)
      (ih (fun q hq x hx hxn => hps q (List.mem_cons_of_mem _ hq) x hx hxn) _)

/-- '$' and every body or cache symbol are in the universe. -/
theorem mem_followUniverse_body (g : Grammar) (c : FirstCache) {x : Char}
    (h : x ∈ bodySyms g) : x ∈ followUniverse g c :=
  mem_sinsert.mpr (Or.inr (mem_sunion.mpr (Or.inl h)))

theorem mem_followUniverse_cache (g : Grammar) (c : FirstCache) {e : Char × FSet} {x : Char}
    (he : e ∈ c) (h : x ∈ e.2.1) : x ∈ followUniverse g c :=
  mem_sinsert.mpr (Or.inr (mem_sunion.mpr (Or.inr (mem_cacheSyms c [] e he x h))))

/-- One full pass over every production satisfies the step contract
(with the flag starting down), for any universe containing every
cached FIRST symbol and every non-non-terminal body symbol. -/
theorem onePass_stepokU (g : Grammar) (c : FirstCache) (U : List Char) (hwf : GramWF g)
    (hcacheU : ∀ e ∈ c, ∀ x ∈ e.2.1, x ∈ U)
    (hbodyU : ∀ e ∈ g.productions, ∀ p ∈ e.2, ∀ x ∈ p, x ∉ g.nonTerminals → x ∈ U)
    (f : FollowCache) :
    StepOk g U (f, false) (onePass g c f) := by
  unfold onePass
  suffices h : ∀ (ps : List (Char × List (List Char))), (∀ e ∈ ps, e ∈ g.productions) →
      ∀ acc, StepOk g U acc
        (ps.foldl (fun acc e => passProds g c e.1 e.2 acc) acc) by
    exact h g.productions (fun _ he => he) (f, false)
  intro ps
  induction ps with
  | nil => intro _ acc; exact stepOk_refl g _ acc
  | cons e es ih =>
    intro hes acc
    have hein : e ∈ g.productions := hes e (List.mem_cons_self _ _)
    refine stepOk_comp ?_ (ih (fun e' he' => hes e' (List.mem_cons_of_mem _ he')) _)
    exact passProds_stepok g c U e.1
      hwf.2.2.2.2.2.2.1
      (hwf.2.2.1 e hein)
      (fun e' he' x hx => hcacheU e' he' x hx)
      e.2
      (fun p hp x hx hxn => hbodyU e hein p hp x hx hxn)
      acc

/-- The original universe instance used for termination. -/
theorem onePass_stepok (g : Grammar) (c : FirstCache) (hwf : GramWF g) (f : FollowCache) :
    StepOk g (followUniverse g c) (f, false) (onePass g c f) :=
  onePass_stepokU g c (followUniverse g c) hwf
    (fun _e he _x hx => mem_followUniverse_cache g c he hx)
    (fun e he p hp x hx _ => mem_followUniverse_body g c (mem_bodySyms g e he p hp x hx))
    f

theorem schain_nodup {l : List Char} (h : SChain l) : l.Nodup :=
  (List.chain'_iff_pairwise.mp h).imp (fun hlt => ne_of_lt hlt)

theorem nodup_subset_length {l U : List Char} (hnd : l.Nodup) (hsub : ∀ x ∈ l, x ∈ U) :
    l.length ≤ U.length := by
  have h1 : l.toFinset.card = l.length := List.toFinset_card_of_nodup hnd
  have h2 : l.toFinset ⊆ U.toFinset :=
    fun x hx => List.mem_toFinset.mpr (hsub x (List.mem_toFinset.mp hx))
  have h3 := Finset.card_le_card h2
  have h4 := U.toFinset_card_le
  omega

theorem ftotal_le_bound (f : FollowCache) (B : Nat) (h : ∀ e ∈ f, e.2.length ≤ B) :
    ftotal f ≤ f.length * B := by
  induction f with
  | nil => simp [ftotal]
  | cons e r ih =>
    have he := h e (List.mem_cons_self _ _)
    have hr := ih (fun e' he' => h e' (List.mem_cons_of_mem _ he'))
    unfold ftotal at hr ⊢
    simp only [List.map_cons, List.sum_cons, List.length_cons]
    have : (r.length + 1) * B = r.length * B + B := by ring
    omega

/-- A well-formed FOLLOW cache carries at most `|non-terminals| * |U|`
symbols in total: the finite bound behind termination. -/
theorem fwf_total_le (g : Grammar) (U : List Char) (f : FollowCache) (hf : FWF g U f) :
    ftotal f ≤ g.nonTerminals.length * U.length := by
  have hlen : f.length = g.nonTerminals.length := by
    rw [← hf.1, List.length_map]
  rw [← hlen]
  exact ftotal_le_bound f U.length
    (fun e he => nodup_subset_length (schain_nodup (hf.2.1 e he)) (fun x hx => hf.2.2 e he x hx))

theorem followLoop_succ (g : Grammar) (c : FirstCache) (n : Nat) (f : FollowCache) :
    followLoop g c (n+1) f =
      if (onePass g c f).2 = true then followLoop g c n (onePass g c f).1
      else (onePass g c f).1 := rfl

/-- With enough fuel relative to the remaining headroom of the
measure, the loop stops at a genuine fixed point. -/
theorem followLoop_stable (g : Grammar) (c : FirstCache) (hwf : GramWF g) :
    ∀ (fuel : Nat) (f : FollowCache), FWF g (followUniverse g c) f →
      g.nonTerminals.length * (followUniverse g c).length < ftotal f + fuel →
      (onePass g c (followLoop g c fuel f)).2 = false ∧
      FWF g (followUniverse g c) (followLoop g c fuel f) := by
  intro fuel
  induction fuel with
  | zero =>
    intro f hf hbound
    have := fwf_total_le g (followUniverse g c) f hf
    omega
  | succ n ih =>
    intro f hf hbound
    rw [followLoop_succ]
    obtain ⟨hfwf', hle, hflag, hsame, hstrict⟩ := onePass_stepok g c hwf f hf
    by_cases hch : (onePass g c f).2 = true
    · rw [if_pos hch]
      have hstrict' : ftotal f < ftotal (onePass g c f).1 := hstrict rfl hch
      exact ih (onePass g c f).1 hfwf' (by omega)
    · rw [if_neg hch]
      have hch0 : (onePass g c f).2 = false := by
        cases h : (onePass g c f).2
        · rfl
        · exact absurd h hch
      have hsame' := hsame hch0
      constructor
      · rw [hsame']
        exact hch0
      · rw [hsame']
        exact hf

/-- The initial FOLLOW cache is well-formed. -/
theorem followInit_fwf (g : Grammar) (c : FirstCache) :
    FWF g (followUniverse g c) (followInit g) := by
  refine ⟨?_, ?_, ?_⟩
  · unfold followInit
    rw [List.map_map]
    have hcong : ∀ nt ∈ g.nonTerminals,
        (Prod.fst ∘ fun nt => (nt, if nt = g.axm then ['$'] else [])) nt = id nt :=
      fun _ _ => rfl
    rw [List.map_congr_left hcong, List.map_id]
  · intro e he
    rcases List.mem_map.mp he with ⟨nt, -, rfl⟩
    by_cases h : nt = g.axm
    · simp only [h, if_pos rfl]
      exact List.chain'_singleton '$'
    · simp only [if_neg h]
      exact List.chain'_nil
  · intro e he x hx
    rcases List.mem_map.mp he with ⟨nt, -, rfl⟩
    by_cases h : nt = g.axm
    · rw [if_pos h] at hx
      rcases List.mem_singleton.mp hx with rfl
      exact mem_sinsert.mpr (Or.inl rfl)
    · rw [if_neg h] at hx
      cases hx

/-- C6: on a validated grammar, with the FIRST sets cached, the
fixed-point iteration of `compute_follow` terminates: every pass over
a well-formed FOLLOW cache either reports no change and returns the
cache unchanged (the final pass), or strictly enlarges some FOLLOW set
within the finite universe of grammar symbols plus the end-marker; and
the loop actually run by `compute_follow` (with the fuel the embedding
gives it) reaches a pass that changes nothing. -/
theorem compute_follow_fixpoint_terminates (g : Grammar) (c : FirstCache) (hwf : GramWF g) :
    (∀ f : FollowCache, FWF g (followUniverse g c) f →
      ((onePass g c f).2 = false → (onePass g c f).1 = f) ∧
      ((onePass g c f).2 = true →
        fgrow f (onePass g c f).1 ∧ ftotal f < ftotal (onePass g c f).1) ∧
      FWF g (followUniverse g c) (onePass g c f).1) ∧
    (onePass g c (followLoop g c (followFuel g c) (followInit g))).2 = false := by
  constructor
  · intro f hf
    obtain ⟨hfwf', hle, hflag, hsame, hstrict⟩ := onePass_stepok g c hwf f hf
    exact ⟨hsame, fun ht => ⟨onePass_grow g c f, hstrict rfl ht⟩, hfwf'⟩
  · have hinit := followInit_fwf g c
    refine (followLoop_stable g c hwf (followFuel g c) (followInit g) hinit ?_).1
    unfold followFuel
    omega

/-- Witness for C6 at the expression grammar with an empty cache. -/
theorem compute_follow_fixpoint_terminates_witness :
    GramWF gExpr ∧
    (onePass gExpr [] (followLoop gExpr [] (followFuel gExpr []) (followInit gExpr))).2 = false :=
  ⟨by decide, (compute_follow_fixpoint_terminates gExpr [] (by decide)).2⟩

/-! ## C7: idempotence of compute_first / compute_follow -/

/-- Cache extension: every stored entry keeps its exact value. -/
def cext (c c' : FirstCache) : Prop := ∀ k v, alookup c k = some v → alookup c' k = some v

theorem cext_refl (c : FirstCache) : cext c c := fun _ _ h => h

theorem cext_trans {a b c : FirstCache} (h1 : cext a b) (h2 : cext b c) : cext a c :=
  fun k v h => h2 k v (h1 k v h)

theorem alookup_append_left {α : Type} {c : List (Char × α)} (d : List (Char × α))
    {k : Char} {v : α} (h : alookup c k = some v) : alookup (c ++ d) k = some v := by
  induction c with
  | nil => cases h
  | cons e r ih =>
    obtain ⟨k0, v0⟩ := e
    rw [alookup_cons] at h
    rw [List.cons_append, alookup_cons]
    by_cases hk : k = k0
    · rw [if_pos hk] at h
      rw [if_pos hk]
      exact h
    · rw [if_neg hk] at h
      rw [if_neg hk]
      exact ih h

theorem alookup_append_right {α : Type} {c : List (Char × α)} (d : List (Char × α))
    {k : Char} (h : alookup c k = none) : alookup (c ++ d) k = alookup d k := by
  induction c with
  | nil => rfl
  | cons e r ih =>
    obtain ⟨k0, v0⟩ := e
    rw [alookup_cons] at h
    rw [List.cons_append, alookup_cons]
    by_cases hk : k = k0
    · rw [if_pos hk] at h; cases h
    · rw [if_neg hk] at h
      rw [if_neg hk]
      exact ih h

/-- The FIRST computation only ever adds cache entries: an entry
present before a call still holds the same set afterwards, and
`firstNT` additionally guarantees its symbol is cached. -/
theorem first_preserve (g : Grammar) : ∀ fuel : Nat,
    (∀ c seq r c', firstSeq g fuel c seq = .ok (r, c') → cext c c') ∧
    (∀ c s c', firstNT g fuel c s = .ok c' →
      cext c c' ∧ (alookup c' s).isSome = true) ∧
    (∀ c s ps c', firstProds g fuel c s ps = .ok c' →
      (∀ k v, k ≠ s → alookup c k = some v → alookup c' k = some v) ∧
      ((alookup c s).isSome = true → (alookup c' s).isSome = true)) := by
  intro fuel
  induction fuel with
  | zero =>
    refine ⟨?_, ?_, ?_⟩
    · intro c seq r c' h; rw [firstSeq] at h; cases h
    · intro c s c' h; rw [firstNT] at h; cases h
    · intro c s ps c' h; rw [firstProds] at h; cases h
  | succ n ih =>
    obtain ⟨ihSeq, ihNT, ihProds⟩ := ih
    refine ⟨?_, ?_, ?_⟩
    · intro c seq r c' h
      match seq with
      | [] =>
        rw [firstSeq] at h
        cases h
        exact cext_refl c
      | s :: rest =>
        rw [firstSeq] at h
        by_cases ht : bmem s g.terminals = true
        · rw [if_pos ht] at h
          cases h
          exact cext_refl c
        · rw [if_neg ht] at h
          by_cases hn : bmem s g.nonTerminals = true
          · rw [if_pos hn] at h
            cases hnt : firstNT g n c s with
            | error e => simp only [hnt] at h; cases h
            | ok c1 =>
              simp only [hnt] at h
              have hc1 := ihNT c s c1 hnt
              cases hl : alookup c1 s with
              | none => simp only [hl] at h; cases h
              | some fs =>
                simp only [hl] at h
                by_cases he : fs.2 = true
                · rw [if_pos he] at h
                  cases hrest : firstSeq g n c1 rest with
                  | error e => simp only [hrest] at h; cases h
                  | ok rc2 =>
                    obtain ⟨r2, c2⟩ := rc2
                    simp only [hrest] at h
                    cases h
                    exact cext_trans hc1.1 (ihSeq c1 rest _ _ hrest)
                · rw [if_neg he] at h
                  cases h
                  exact hc1.1
          · rw [if_neg hn] at h
            cases h
    · intro c s c' h
      rw [firstNT] at h
      by_cases hc : (alookup c s).isSome = true
      · rw [if_pos hc] at h
        cases h
        exact ⟨cext_refl c, hc⟩
      · rw [if_neg hc] at h
        have hnone : alookup c s = none := by
          cases hl : alookup c s
          · rfl
          · rw [hl] at hc; simp at hc
        have hp := ihProds (c ++ [(s, ([], false))]) s (prodsOf g s) c' h
        constructor
        · intro k v hk
          by_cases hks : k = s
          · rw [hks] at hk
            rw [hnone] at hk
            cases hk
          · exact hp.1 k v hks (alookup_append_left _ hk)
        · apply hp.2
          rw [alookup_append_right _ hnone]
          rw [alookup_cons]
          rw [if_pos rfl]
          rfl
    · intro c s ps c' h
      match ps with
      | [] =>
        rw [firstProds] at h
        cases h
        exact ⟨fun _ _ _ hv => hv, fun hv => hv⟩
      | p :: rest =>
        rw [firstProds] at h
        cases hseq : firstSeq g n c p with
        | error e => simp only [hseq] at h; cases h
        | ok rc1 =>
          obtain ⟨r1, c1⟩ := rc1
          simp only [hseq] at h
          have hpre := ihSeq c p r1 c1 hseq
          have hrec := ihProds (aset c1 s (funion ((alookup c1 s).getD ([], false)) r1)) s rest c' h
          constructor
          · intro k v hk hv
            apply hrec.1 k v hk
            rw [alookup_aset, if_neg hk]
            exact hpre k v hv
          · intro hv
            apply hrec.2
            rw [alookup_aset, if_pos rfl]
            rcases Option.isSome_iff_exists.mp hv with ⟨w, hw⟩
            rw [hpre s w hw]
            rfl

/-- Running `_first` again over any cache extending the result cache
returns the same set and leaves the cache untouched: all the work of
the first run is read back from the cache. -/
theorem firstSeq_ext (g : Grammar) : ∀ fuel : Nat, ∀ (c : FirstCache) (seq : List Char)
    (r : FSet) (c' : FirstCache), firstSeq g fuel c seq = .ok (r, c') →
    ∀ cB, cext c' cB → firstSeq g fuel cB seq = .ok (r, cB) := by
  intro fuel
  induction fuel with
  | zero =>
    intro c seq r c' h
    rw [firstSeq] at h
    cases h
  | succ n ih =>
    intro c seq r c' h cB hext
    match seq with
    | [] =>
      rw [firstSeq] at h
      cases h
      rw [firstSeq]
    | s :: rest =>
      rw [firstSeq] at h
      rw [firstSeq]
      by_cases ht : bmem s g.terminals = true
      · rw [if_pos ht] at h ⊢
        cases h
        rfl
      · rw [if_neg ht] at h ⊢
        by_cases hn : bmem s g.nonTerminals = true
        · rw [if_pos hn] at h ⊢
          cases hnt : firstNT g n c s with
          | error e => simp only [hnt] at h; cases h
          | ok c1 =>
            simp only [hnt] at h
            have hn1 : ∃ m, n = m + 1 := by
              cases n with
              | zero => rw [firstNT] at hnt; cases hnt
              | succ m => exact ⟨m, rfl⟩
            obtain ⟨m, rfl⟩ := hn1
            cases hl : alookup c1 s with
            | none => simp only [hl] at h; cases h
            | some fs =>
              simp only [hl] at h
              by_cases he : fs.2 = true
              · rw [if_pos he] at h
                cases hrest : firstSeq g (m+1) c1 rest with
                | error e => simp only [hrest] at h; cases h
                | ok rc2 =>
                  obtain ⟨r2, c2⟩ := rc2
                  simp only [hrest] at h
                  cases h
                  have hc1ext : cext c1 cB :=
                    cext_trans ((first_preserve g (m+1)).1 c1 rest _ _ hrest) hext
                  have hcBs : alookup cB s = some fs := hc1ext s fs hl
                  have hNTB : firstNT g (m+1) cB s = .ok cB := by
                    rw [firstNT]
                    rw [if_pos (show (alookup cB s).isSome = true by rw [hcBs]; rfl)]
                  have hrB := ih c1 rest r2 _ hrest cB hext
                  simp only [hNTB, hcBs, if_pos he, hrB]
              · rw [if_neg he] at h
                cases h
                have hcBs : alookup cB s = some fs := hext s fs hl
                have hNTB : firstNT g (m+1) cB s = .ok cB := by
                  rw [firstNT]
                  rw [if_pos (show (alookup cB s).isSome = true by rw [hcBs]; rfl)]
                simp only [hNTB, hcBs, if_neg he]
        · rw [if_neg hn] at h
          cases h

theorem fillFirstAll_preserve (g : Grammar) (fuel : Nat) :
    ∀ (l : List Char) (c c' : FirstCache),
      fillFirstAll g fuel c l = .ok c' → cext c c' := by
  intro l
  induction l with
  | nil =>
    intro c c' h
    rw [fillFirstAll] at h
    cases h
    exact cext_refl _
  | cons nt nts ih =>
    intro c c' h
    rw [fillFirstAll] at h
    cases hseq : firstSeq g fuel c [nt] with
    | error e => simp only [hseq] at h; cases h
    | ok rc1 =>
      obtain ⟨r1, c1⟩ := rc1
      simp only [hseq] at h
      exact cext_trans ((first_preserve g fuel).1 c [nt] _ _ hseq) (ih c1 c' h)

theorem fillFirstAll_stable (g : Grammar) (fuel : Nat) :
    ∀ (l : List Char) (c c' : FirstCache),
      fillFirstAll g fuel c l = .ok c' → fillFirstAll g fuel c' l = .ok c' := by
  intro l
  induction l with
  | nil =>
    intro c c' h
    rw [fillFirstAll] at h
    cases h
    rfl
  | cons nt nts ih =>
    intro c c' h
    rw [fillFirstAll] at h
    cases hseq : firstSeq g fuel c [nt] with
    | error e => simp only [hseq] at h; cases h
    | ok rc1 =>
      obtain ⟨r1, c1⟩ := rc1
      simp only [hseq] at h
      have hc1c' : cext c1 c' := fillFirstAll_preserve g fuel nts c1 c' h
      have hstep := firstSeq_ext g fuel c [nt] r1 c1 hseq c' hc1c'
      rw [fillFirstAll]
      simp only [hstep]
      exact ih c1 c' h

/-- C7: calling `compute_first` twice with the same sentence, or
`compute_follow` twice with the same non-terminal, on the same
instance (i.e. with the caches the first call left behind) returns the
same set both times, and the caches do not drift. -/
theorem compute_first_follow_idempotent (g : Grammar) (fuel : Nat) :
    (∀ (c : FirstCache) (sentence : List Char) (r : FSet) (c' : FirstCache),
      computeFirst g fuel c sentence = .ok (r, c') →
      computeFirst g fuel c' sentence = .ok (r, c')) ∧
    (∀ (c : FirstCache) (sym : Char) (s : List Char) (f1 : FollowCache) (c1 : FirstCache),
      computeFollow g fuel sym c = .ok (s, f1, c1) →
      computeFollow g fuel sym c1 = .ok (s, f1, c1)) := by
  constructor
  · intro c sentence r c' h
    exact firstSeq_ext g fuel c sentence r c' h c' (cext_refl c')
  · intro c sym s f1 c1 h
    unfold computeFollow at h ⊢
    cases hff : fillFirstAll g fuel c g.nonTerminals with
    | error e => rw [hff] at h; cases h
    | ok c1' =>
      simp only [hff] at h
      by_cases hsym : bmem sym g.nonTerminals = true
      · simp only [hsym, if_true] at h
        have h2 := Except.ok.inj h
        have hc1 : c1' = c1 := congrArg (fun p => p.2.2) h2
        subst hc1
        have hstable := fillFirstAll_stable g fuel g.nonTerminals c _ hff
        simp only [hstable, hsym, if_true]
        exact h
      · simp only [hsym, Bool.false_eq_true, if_false] at h
        cases h

/-- Witness for C7: repeating `compute_first(["E"])` on the expression
grammar with the cache of the first call returns the identical result. -/
theorem compute_first_follow_idempotent_witness :
    computeFirst gExpr 30 [] ['E'] =
      .ok ((['(', 'i'], false), [('E', (['(', 'i'], false)), ('T', (['(', 'i'], false))]) ∧
    computeFirst gExpr 30 [('E', (['(', 'i'], false)), ('T', (['(', 'i'], false))] ['E'] =
      .ok ((['(', 'i'], false), [('E', (['(', 'i'], false)), ('T', (['(', 'i'], false))]) :=
  ⟨rfl, (compute_first_follow_idempotent gExpr 30).1 [] ['E']
    (['(', 'i'], false) [('E', (['(', 'i'], false)), ('T', (['(', 'i'], false))] rfl⟩

/-! ## C3: get_ll1_table has exactly two outcomes -/

/-- Every cached FIRST symbol is a terminal occurring in some body. -/
def cacheP (g : Grammar) (c : FirstCache) : Prop :=
  ∀ e ∈ c, ∀ x ∈ e.2.1, x ∈ g.terminals ∧ x ∈ bodySyms g

/-- Every symbol of the scanned sequence is declared, and terminals in
it occur in some body (true of production bodies and of singleton
non-terminal queries). -/
def SeqDecl (g : Grammar) (seq : List Char) : Prop :=
  ∀ x ∈ seq, (x ∈ g.terminals ∧ x ∈ bodySyms g) ∨ x ∈ g.nonTerminals

/-- Bodies looked up during cache population are declared. -/
theorem prodsOf_decl (g : Grammar) (hwf : GramWF g) (s : Char) (_hs : s ∈ g.nonTerminals) :
    ∀ p ∈ prodsOf g s, SeqDecl g p := by
  intro p hp
  unfold prodsOf at hp
  cases hl : alookup g.productions s with
  | none => rw [hl] at hp; cases hp
  | some ps =>
    rw [hl] at hp
    simp only [Option.getD_some] at hp
    have hmem : (s, ps) ∈ g.productions := alookup_mem hl
    intro x hx
    rcases hwf.2.2.2.2.1 (s, ps) hmem |>.2 p hp x hx with hterm | hnt
    · exact Or.inl ⟨hterm, mem_bodySyms g (s, ps) hmem p hp x hx⟩
    · exact Or.inr hnt

/-- Soundness of the FIRST computation on a validated grammar: it
keeps the cache invariant, produces only terminals that occur in
bodies, and can only fail by running out of fuel. -/
theorem first_sound (g : Grammar) (hwf : GramWF g) : ∀ fuel : Nat,
    (∀ c seq, cacheP g c → SeqDecl g seq →
      (∀ r c', firstSeq g fuel c seq = .ok (r, c') →
        cacheP g c' ∧ ∀ x ∈ r.1, x ∈ g.terminals ∧ x ∈ bodySyms g) ∧
      (∀ e, firstSeq g fuel c seq = .error e → e = .fuel)) ∧
    (∀ c s, cacheP g c → s ∈ g.nonTerminals →
      (∀ c', firstNT g fuel c s = .ok c' → cacheP g c') ∧
      (∀ e, firstNT g fuel c s = .error e → e = .fuel)) ∧
    (∀ c s ps, cacheP g c → (∀ p ∈ ps, SeqDecl g p) →
      (∀ c', firstProds g fuel c s ps = .ok c' → cacheP g c') ∧
      (∀ e, firstProds g fuel c s ps = .error e → e = .fuel)) := by
  intro fuel
  induction fuel with
  | zero =>
    refine ⟨?_, ?_, ?_⟩
    · intro c seq _ _
      constructor
      · intro r c' h; rw [firstSeq] at h; cases h
      · intro e h; rw [firstSeq] at h; cases h; rfl
    · intro c s _ _
      constructor
      · intro c' h; rw [firstNT] at h; cases h
      · intro e h; rw [firstNT] at h; cases h; rfl
    · intro c s ps _ _
      constructor
      · intro c' h; rw [firstProds] at h; cases h
      · intro e h; rw [firstProds] at h; cases h; rfl
  | succ n ih =>
    obtain ⟨ihSeq, ihNT, ihProds⟩ := ih
    refine ⟨?_, ?_, ?_⟩
    · intro c seq hc hdecl
      match seq with
      | [] =>
        constructor
        · intro r c' h
          rw [firstSeq] at h
          cases h
          exact ⟨hc, fun x hx => by cases hx⟩
        · intro e h; rw [firstSeq] at h; cases h
      | s :: rest =>
        have hdrest : SeqDecl g rest := fun x hx => hdecl x (List.mem_cons_of_mem _ hx)
        constructor
        · intro r c' h
          rw [firstSeq] at h
          by_cases ht : bmem s g.terminals = true
          · rw [if_pos ht] at h
            cases h
            refine ⟨hc, fun x hx => ?_⟩
            rcases List.mem_singleton.mp hx with rfl
            rcases hdecl x (List.mem_cons_self _ _) with h' | h'
            · exact h'
            · exact absurd h' (fun hm => (hwf.1 x (bmem_iff.mp ht)) hm)
          · rw [if_neg ht] at h
            by_cases hn : bmem s g.nonTerminals = true
            · rw [if_pos hn] at h
              cases hnt : firstNT g n c s with
              | error e => simp only [hnt] at h; cases h
              | ok c1 =>
                simp only [hnt] at h
                have hc1 : cacheP g c1 :=
                  (ihNT c s hc (bmem_iff.mp hn)).1 c1 hnt
                cases hl : alookup c1 s with
                | none => simp only [hl] at h; cases h
                | some fs =>
                  simp only [hl] at h
                  have hfs : ∀ x ∈ fs.1, x ∈ g.terminals ∧ x ∈ bodySyms g :=
                    fun x hx => hc1 (s, fs) (alookup_mem hl) x hx
                  by_cases he : fs.2 = true
                  · rw [if_pos he] at h
                    cases hrest : firstSeq g n c1 rest with
                    | error e => simp only [hrest] at h; cases h
                    | ok rc2 =>
                      obtain ⟨r2, c2⟩ := rc2
                      simp only [hrest] at h
                      cases h
                      have hr2 := (ihSeq c1 rest hc1 hdrest).1 r2 _ hrest
                      refine ⟨hr2.1, fun x hx => ?_⟩
                      rcases mem_sunion.mp hx with hx' | hx'
                      · exact hfs x hx'
                      · exact hr2.2 x hx'
                  · rw [if_neg he] at h
                    cases h
                    exact ⟨hc1, hfs⟩
            · rw [if_neg hn] at h
              cases h
        · intro e h
          rw [firstSeq] at h
          by_cases ht : bmem s g.terminals = true
          · rw [if_pos ht] at h; cases h
          · rw [if_neg ht] at h
            by_cases hn : bmem s g.nonTerminals = true
            · rw [if_pos hn] at h
              cases hnt : firstNT g n c s with
              | error e' =>
                simp only [hnt] at h
                cases h
                exact (ihNT c s hc (bmem_iff.mp hn)).2 _ hnt
              | ok c1 =>
                simp only [hnt] at h
                cases hl : alookup c1 s with
                | none =>
                  exfalso
                  have := ((first_preserve g n).2.1 c s c1 hnt).2
                  rw [hl] at this
                  cases this
                | some fs =>
                  simp only [hl] at h
                  have hc1 : cacheP g c1 :=
                    (ihNT c s hc (bmem_iff.mp hn)).1 c1 hnt
                  by_cases he : fs.2 = true
                  · rw [if_pos he] at h
                    cases hrest : firstSeq g n c1 rest with
                    | error e' =>
                      simp only [hrest] at h
                      cases h
                      exact (ihSeq c1 rest hc1 hdrest).2 _ hrest
                    | ok rc2 =>
                      obtain ⟨r2, c2⟩ := rc2
                      simp only [hrest] at h
                      cases h
                  · rw [if_neg he] at h
                    cases h
            · rw [if_neg hn] at h
              exfalso
              rcases hdecl s (List.mem_cons_self _ _) with h' | h'
              · exact ht (bmem_iff.mpr h'.1)
              · exact hn (bmem_iff.mpr h')
    · intro c s hc hs
      constructor
      · intro c' h
        rw [firstNT] at h
        by_cases hcached : (alookup c s).isSome = true
        · rw [if_pos hcached] at h
          cases h
          exact hc
        · rw [if_neg hcached] at h
          have hcP : cacheP g (c ++ [(s, ([], false))]) := by
            intro e he x hx
            rcases List.mem_append.mp he with he' | he'
            · exact hc e he' x hx
            · rcases List.mem_singleton.mp he' with rfl
              cases hx
          exact (ihProds (c ++ [(s, ([], false))]) s (prodsOf g s) hcP
            (prodsOf_decl g hwf s hs)).1 c' h
      · intro e h
        rw [firstNT] at h
        by_cases hcached : (alookup c s).isSome = true
        · rw [if_pos hcached] at h; cases h
        · rw [if_neg hcached] at h
          have hcP : cacheP g (c ++ [(s, ([], false))]) := by
            intro e' he x hx
            rcases List.mem_append.mp he with he' | he'
            · exact hc e' he' x hx
            · rcases List.mem_singleton.mp he' with rfl
              cases hx
          exact (ihProds (c ++ [(s, ([], false))]) s (prodsOf g s) hcP
            (prodsOf_decl g hwf s hs)).2 e h
    · intro c s ps hc hps
      match ps with
      | [] =>
        constructor
        · intro c' h; rw [firstProds] at h; cases h; exact hc
        · intro e h; rw [firstProds] at h; cases h
      | p :: rest =>
        have hrest : ∀ q ∈ rest, SeqDecl g q := fun q hq => hps q (List.mem_cons_of_mem _ hq)
        have hp := hps p (List.mem_cons_self _ _)
        constructor
        · intro c' h
          rw [firstProds] at h
          cases hseq : firstSeq g n c p with
          | error e => simp only [hseq] at h; cases h
          | ok rc1 =>
            obtain ⟨r1, c1⟩ := rc1
            simp only [hseq] at h
            have hsound := (ihSeq c p hc hp).1 r1 c1 hseq
            have hcset : cacheP g (aset c1 s (funion ((alookup c1 s).getD ([], false)) r1)) := by
              intro e he x hx
              rcases mem_aset he with he' | rfl
              · exact hsound.1 e he' x hx
              · simp only at hx
                rcases mem_sunion.mp hx with hx' | hx'
                · cases hl : alookup c1 s with
                  | none => rw [hl] at hx'; cases hx'
                  | some w =>
                    rw [hl] at hx'
                    exact hsound.1 (s, w) (alookup_mem hl) x hx'
                · exact hsound.2 x hx'
            exact (ihProds _ s rest hcset hrest).1 c' h
        · intro e h
          rw [firstProds] at h
          cases hseq : firstSeq g n c p with
          | error e' =>
            simp only [hseq] at h
            cases h
            exact (ihSeq c p hc hp).2 _ hseq
          | ok rc1 =>
            obtain ⟨r1, c1⟩ := rc1
            simp only [hseq] at h
            have hsound := (ihSeq c p hc hp).1 r1 c1 hseq
            have hcset : cacheP g (aset c1 s (funion ((alookup c1 s).getD ([], false)) r1)) := by
              intro e' he x hx
              rcases mem_aset he with he' | rfl
              · exact hsound.1 e' he' x hx
              · simp only at hx
                rcases mem_sunion.mp hx with hx' | hx'
                · cases hl : alookup c1 s with
                  | none => rw [hl] at hx'; cases hx'
                  | some w =>
                    rw [hl] at hx'
                    exact hsound.1 (s, w) (alookup_mem hl) x hx'
                · exact hsound.2 x hx'
            exact (ihProds _ s rest hcset hrest).2 e h

/-- Every non-terminal is cached. -/
def cacheFull (g : Grammar) (c : FirstCache) : Prop :=
  ∀ nt ∈ g.nonTerminals, (alookup c nt).isSome = true

/-- On a full cache, a successful FIRST query leaves the cache
untouched. -/
theorem firstSeq_nochange (g : Grammar) : ∀ (fuel : Nat) (c : FirstCache) (seq : List Char)
    (r : FSet) (c' : FirstCache), cacheFull g c → firstSeq g fuel c seq = .ok (r, c') →
    c' = c := by
  intro fuel
  induction fuel with
  | zero => intro c seq r c' _ h; rw [firstSeq] at h; cases h
  | succ n ih =>
    intro c seq r c' hfull h
    match seq with
    | [] => rw [firstSeq] at h; cases h; rfl
    | s :: rest =>
      rw [firstSeq] at h
      by_cases ht : bmem s g.terminals = true
      · rw [if_pos ht] at h; cases h; rfl
      · rw [if_neg ht] at h
        by_cases hn : bmem s g.nonTerminals = true
        · rw [if_pos hn] at h
          cases hnt : firstNT g n c s with
          | error e => simp only [hnt] at h; cases h
          | ok c1 =>
            simp only [hnt] at h
            have hc1 : c1 = c := by
              cases n with
              | zero => rw [firstNT] at hnt; cases hnt
              | succ m =>
                rw [firstNT] at hnt
                rw [if_pos (hfull s (bmem_iff.mp hn))] at hnt
                exact (Except.ok.inj hnt).symm
            subst hc1
            cases hl : alookup c1 s with
            | none => simp only [hl] at h; cases h
            | some fs =>
              simp only [hl] at h
              by_cases he : fs.2 = true
              · rw [if_pos he] at h
                cases hrest : firstSeq g n c1 rest with
                | error e => simp only [hrest] at h; cases h
                | ok rc2 =>
                  obtain ⟨r2, c2⟩ := rc2
                  simp only [hrest] at h
                  cases h
                  exact ih c1 rest r2 _ hfull hrest
              · rw [if_neg he] at h
                cases h
                rfl
        · rw [if_neg hn] at h
          cases h

/-- After filling the cache for a list of non-terminals, each of them
is cached. -/
theorem fillFirstAll_full (g : Grammar) (fuel : Nat) (hwf : GramWF g) :
    ∀ (l : List Char) (c c' : FirstCache), (∀ nt ∈ l, nt ∈ g.nonTerminals) →
      fillFirstAll g fuel c l = .ok c' → ∀ nt ∈ l, (alookup c' nt).isSome = true := by
  intro l
  induction l with
  | nil => intro c c' _ _ nt hnt; cases hnt
  | cons nt0 nts ih =>
    intro c c' hl h nt hnt
    rw [fillFirstAll] at h
    cases hseq : firstSeq g fuel c [nt0] with
    | error e => simp only [hseq] at h; cases h
    | ok rc1 =>
      obtain ⟨r1, c1⟩ := rc1
      simp only [hseq] at h
      rcases List.mem_cons.mp hnt with rfl | hnt'
      · -- the head non-terminal is cached after its own run, and preserved
        have hn0 : nt ∈ g.nonTerminals := hl nt (List.mem_cons_self _ _)
        have hcached : (alookup c1 nt).isSome = true := by
          cases fuel with
          | zero => rw [firstSeq] at hseq; cases hseq
          | succ m =>
            rw [firstSeq] at hseq
            have htm : ¬ bmem nt g.terminals = true := by
              intro hc
              exact hwf.1 nt (bmem_iff.mp hc) hn0
            rw [if_neg htm, if_pos (bmem_iff.mpr hn0)] at hseq
            cases hnt2 : firstNT g m c nt with
            | error e => simp only [hnt2] at hseq; cases hseq
            | ok c0 =>
              simp only [hnt2] at hseq
              have hc0s := ((first_preserve g m).2.1 c nt c0 hnt2).2
              cases hl0 : alookup c0 nt with
              | none => rw [hl0] at hc0s; cases hc0s
              | some fs =>
                simp only [hl0] at hseq
                by_cases he : fs.2 = true
                · rw [if_pos he] at hseq
                  cases m with
                  | zero => rw [firstSeq] at hseq; cases hseq
                  | succ m2 =>
                    rw [firstSeq] at hseq
                    cases hseq
                    rw [hl0]
                    rfl
                · rw [if_neg he] at hseq
                  cases hseq
                  rw [hl0]
                  rfl
        rcases Option.isSome_iff_exists.mp hcached with ⟨w, hw⟩
        have := fillFirstAll_preserve g fuel nts c1 c' h nt w hw
        rw [this]
        rfl
      · exact ih c1 c' (fun x hx => hl x (List.mem_cons_of_mem _ hx)) h nt hnt'

/-- Filling the cache preserves the cache invariant. -/
theorem fillFirstAll_cacheP (g : Grammar) (fuel : Nat) (hwf : GramWF g) :
    ∀ (l : List Char) (c c' : FirstCache), (∀ nt ∈ l, nt ∈ g.nonTerminals) →
      cacheP g c → fillFirstAll g fuel c l = .ok c' → cacheP g c' := by
  intro l
  induction l with
  | nil => intro c c' _ hc h; rw [fillFirstAll] at h; cases h; exact hc
  | cons nt0 nts ih =>
    intro c c' hl hc h
    rw [fillFirstAll] at h
    cases hseq : firstSeq g fuel c [nt0] with
    | error e => simp only [hseq] at h; cases h
    | ok rc1 =>
      obtain ⟨r1, c1⟩ := rc1
      simp only [hseq] at h
      have hdecl : SeqDecl g [nt0] := by
        intro x hx
        rcases List.mem_singleton.mp hx with rfl
        exact Or.inr (hl x (List.mem_cons_self _ _))
      have hc1 := ((first_sound g hwf fuel).1 c [nt0] hc hdecl).1 r1 c1 hseq
      exact ih c1 c' (fun x hx => hl x (List.mem_cons_of_mem _ hx)) hc1.1 h

/-- Filling the cache can only fail by running out of fuel. -/
theorem fillFirstAll_err (g : Grammar) (fuel : Nat) (hwf : GramWF g) :
    ∀ (l : List Char) (c : FirstCache), (∀ nt ∈ l, nt ∈ g.nonTerminals) →
      cacheP g c → ∀ e, fillFirstAll g fuel c l = .error e → e = .fuel := by
  intro l
  induction l with
  | nil => intro c _ _ e h; rw [fillFirstAll] at h; cases h
  | cons nt0 nts ih =>
    intro c hl hc e h
    rw [fillFirstAll] at h
    cases hseq : firstSeq g fuel c [nt0] with
    | error e' =>
      simp only [hseq] at h
      cases h
      have hdecl : SeqDecl g [nt0] := by
        intro x hx
        rcases List.mem_singleton.mp hx with rfl
        exact Or.inr (hl x (List.mem_cons_self _ _))
      exact ((first_sound g hwf fuel).1 c [nt0] hc hdecl).2 _ hseq
    | ok rc1 =>
      obtain ⟨r1, c1⟩ := rc1
      simp only [hseq] at h
      have hdecl : SeqDecl g [nt0] := by
        intro x hx
        rcases List.mem_singleton.mp hx with rfl
        exact Or.inr (hl x (List.mem_cons_self _ _))
      have hc1 := ((first_sound g hwf fuel).1 c [nt0] hc hdecl).1 r1 c1 hseq
      exact ih c1 (fun x hx => hl x (List.mem_cons_of_mem _ hx)) hc1.1 e h

/-- Structure of the `for nt: compute_follow(nt)` prologue: either the
list was empty, or the final caches are those of the last
`compute_follow` call — a full FIRST fill followed by the fixed-point
loop from the initial FOLLOW cache. -/
theorem followAllLoop_spec (g : Grammar) (fuel : Nat) :
    ∀ (l : List Char) (c : FirstCache) (f f' : FollowCache) (c' : FirstCache),
      (∀ nt ∈ l, nt ∈ g.nonTerminals) →
      followAllLoop g fuel l c f = .ok (f', c') →
      (l = [] ∧ f' = f ∧ c' = c) ∨
      (∃ cp, fillFirstAll g fuel cp g.nonTerminals = .ok c' ∧
        f' = followLoop g c' (followFuel g c') (followInit g)) := by
  intro l
  induction l with
  | nil =>
    intro c f f' c' _ h
    rw [followAllLoop] at h
    cases h
    exact Or.inl ⟨rfl, rfl, rfl⟩
  | cons nt nts ih =>
    intro c f f' c' hl h
    rw [followAllLoop] at h
    cases hcf : computeFollow g fuel nt c with
    | error e => simp only [hcf] at h; cases h
    | ok sfc =>
      obtain ⟨s1, f1, c1⟩ := sfc
      simp only [hcf] at h
      unfold computeFollow at hcf
      cases hff : fillFirstAll g fuel c g.nonTerminals with
      | error e => rw [hff] at hcf; cases hcf
      | ok cmid =>
        simp only [hff] at hcf
        by_cases hsym : bmem nt g.nonTerminals = true
        · simp only [hsym, if_true] at hcf
          have h2 := Except.ok.inj hcf
          have hc1 : cmid = c1 := congrArg (fun p => p.2.2) h2
          have hf1 : followLoop g cmid (followFuel g cmid) (followInit g) = f1 :=
            congrArg (fun p => p.2.1) h2
          rcases ih c1 f1 f' c' (fun x hx => hl x (List.mem_cons_of_mem _ hx)) h with
            hleft | hright
          · obtain ⟨-, hf', hc'⟩ := hleft
            right
            refine ⟨c, ?_, ?_⟩
            · rw [hc', ← hc1]
              exact hff
            · rw [hf', ← hf1, hc1, ← hc']
          · exact Or.inr hright
        · simp only [hsym, Bool.false_eq_true, if_false] at hcf
          cases hcf

theorem followAllLoop_cacheP (g : Grammar) (fuel : Nat) (hwf : GramWF g) :
    ∀ (l : List Char) (c : FirstCache) (f f' : FollowCache) (c' : FirstCache),
      (∀ nt ∈ l, nt ∈ g.nonTerminals) → cacheP g c →
      followAllLoop g fuel l c f = .ok (f', c') → cacheP g c' := by
  intro l
  induction l with
  | nil =>
    intro c f f' c' _ hc h
    rw [followAllLoop] at h
    cases h
    exact hc
  | cons nt nts ih =>
    intro c f f' c' hl hc h
    rw [followAllLoop] at h
    cases hcf : computeFollow g fuel nt c with
    | error e => simp only [hcf] at h; cases h
    | ok sfc =>
      obtain ⟨s1, f1, c1⟩ := sfc
      simp only [hcf] at h
      unfold computeFollow at hcf
      cases hff : fillFirstAll g fuel c g.nonTerminals with
      | error e => rw [hff] at hcf; cases hcf
      | ok cmid =>
        simp only [hff] at hcf
        by_cases hsym : bmem nt g.nonTerminals = true
        · simp only [hsym, if_true] at hcf
          have hc1 : cmid = c1 := congrArg (fun p => p.2.2) (Except.ok.inj hcf)
          have hmid : cacheP g cmid :=
            fillFirstAll_cacheP g fuel hwf g.nonTerminals c cmid (fun x hx => hx) hc hff
          exact ih c1 f1 f' c' (fun x hx => hl x (List.mem_cons_of_mem _ hx))
            (hc1 ▸ hmid) h
        · simp only [hsym, Bool.false_eq_true, if_false] at hcf
          cases hcf

theorem followAllLoop_err (g : Grammar) (fuel : Nat) (hwf : GramWF g) :
    ∀ (l : List Char) (c : FirstCache) (f : FollowCache),
      (∀ nt ∈ l, nt ∈ g.nonTerminals) → cacheP g c →
      ∀ e, followAllLoop g fuel l c f = .error e → e = .fuel := by
  intro l
  induction l with
  | nil => intro c f _ _ e h; rw [followAllLoop] at h; cases h
  | cons nt nts ih =>
    intro c f hl hc e h
    rw [followAllLoop] at h
    cases hcf : computeFollow g fuel nt c with
    | error e' =>
      simp only [hcf] at h
      cases h
      unfold computeFollow at hcf
      cases hff : fillFirstAll g fuel c g.nonTerminals with
      | error e'' =>
        rw [hff] at hcf
        cases hcf
        exact fillFirstAll_err g fuel hwf g.nonTerminals c (fun x hx => hx) hc _ hff
      | ok cmid =>
        simp only [hff] at hcf
        by_cases hsym : bmem nt g.nonTerminals = true
        · simp only [hsym, if_true] at hcf
          cases hcf
        · exact absurd (bmem_iff.mpr (hl nt (List.mem_cons_self _ _))) hsym
    | ok sfc =>
      obtain ⟨s1, f1, c1⟩ := sfc
      simp only [hcf] at h
      unfold computeFollow at hcf
      cases hff : fillFirstAll g fuel c g.nonTerminals with
      | error e'' => rw [hff] at hcf; cases hcf
      | ok cmid =>
        simp only [hff] at hcf
        by_cases hsym : bmem nt g.nonTerminals = true
        · simp only [hsym, if_true] at hcf
          have hc1 : cmid = c1 := congrArg (fun p => p.2.2) (Except.ok.inj hcf)
          have hmid : cacheP g cmid :=
            fillFirstAll_cacheP g fuel hwf g.nonTerminals c cmid (fun x hx => hx) hc hff
          exact ih c1 f1 (fun x hx => hl x (List.mem_cons_of_mem _ hx)) (hc1 ▸ hmid) e h
        · simp only [hsym, Bool.false_eq_true, if_false] at hcf
          cases hcf

/-- The straight-line list of `add_cell` attempts `get_ll1_table`
makes for one production `prod` of `head`, read off the stable caches:
one event per terminal of `FIRST*(prod)`, then, if the production is
nullable, one per symbol of `FOLLOW(head)`. -/
def prodEvents (g : Grammar) (fuel : Nat) (c : FirstCache) (f : FollowCache)
    (head : Char) (p : List Char) : List (Char × Char × List Char) :=
  match firstSeq g fuel c p with
  | .error _ => []
  | .ok (fa, _) =>
    (fa.1.map (fun t => (head, t, p))) ++
    (if fa.2 then ((alookup f head).getD []).map (fun t => (head, t, p)) else [])

/-- Events of all bodies of one head, in order. -/
def headEvents (g : Grammar) (fuel : Nat) (c : FirstCache) (f : FollowCache)
    (head : Char) : List (List Char) → List (Char × Char × List Char)
  | [] => []
  | p :: ps => prodEvents g fuel c f head p ++ headEvents g fuel c f head ps

/-- Events of all productions, in order. -/
def allEvents (g : Grammar) (fuel : Nat) (c : FirstCache) (f : FollowCache) :
    List (Char × List (List Char)) → List (Char × Char × List Char)
  | [] => []
  | e :: es => headEvents g fuel c f e.1 e.2 ++ allEvents g fuel c f es

/-- The complete sequence of cell assignments `get_ll1_table` attempts
on grammar `g` (empty when a computation diverges). -/
def cellEvents (g : Grammar) (fuel : Nat) : List (Char × Char × List Char) :=
  match followAllLoop g fuel g.nonTerminals [] (g.nonTerminals.map (fun nt => (nt, []))) with
  | .error _ => []
  | .ok (f, c) => allEvents g fuel c f g.productions

/-- Replay a list of cell assignments through `add_cell`. -/
def commitEvents (t : LL1Tbl) : List (Char × Char × List Char) → Res LL1Tbl
  | [] => .ok t
  | e :: es =>
    match addCell t e.1 e.2.1 e.2.2 with
    | .error err => .error err
    | .ok t1 => commitEvents t1 es

theorem commitEvents_append (a b : List (Char × Char × List Char)) :
    ∀ t, commitEvents t (a ++ b) =
      match commitEvents t a with
      | .ok t1 => commitEvents t1 b
      | .error e => .error e := by
  induction a with
  | nil => intro t; rfl
  | cons e es ih =>
    intro t
    rw [List.cons_append, commitEvents, commitEvents]
    cases addCell t e.1 e.2.1 e.2.2 with
    | error err => rfl
    | ok t1 => exact ih t1

theorem addCells_commit (head : Char) (p : List Char) :
    ∀ (ts : List Char) (t : LL1Tbl),
      addCells t head ts p = commitEvents t (ts.map (fun ter => (head, ter, p))) := by
  intro ts
  induction ts with
  | nil => intro t; rfl
  | cons ter ters ih =>
    intro t
    rw [List.map_cons, addCells, commitEvents]
    cases addCell t head ter p with
    | error e => rfl
    | ok t1 => exact ih t1

/-- Bodies of declared productions are declared sequences. -/
theorem body_decl (g : Grammar) (hwf : GramWF g) (e : Char × List (List Char))
    (he : e ∈ g.productions) : ∀ p ∈ e.2, SeqDecl g p := by
  intro p hp x hx
  rcases (hwf.2.2.2.2.1 e he).2 p hp x hx with hterm | hnt
  · exact Or.inl ⟨hterm, mem_bodySyms g e he p hp x hx⟩
  · exact Or.inr hnt

/-- Filling the cells for one production equals replaying its event
list (or propagates the FIRST failure). -/
theorem fillProd_commit (g : Grammar) (fuel : Nat) (f : FollowCache) (t : LL1Tbl)
    (c : FirstCache) (head : Char) (p : List Char) (hfull : cacheFull g c) :
    (∃ e, firstSeq g fuel c p = .error e ∧ fillProd g fuel f t c head p = .error e) ∨
    fillProd g fuel f t c head p =
      (match commitEvents t (prodEvents g fuel c f head p) with
       | .ok t' => .ok (t', c)
       | .error e => .error e) := by
  unfold fillProd prodEvents
  cases hseq : firstSeq g fuel c p with
  | error e =>
    left
    refine ⟨e, rfl, ?_⟩
    simp only
  | ok rc =>
    obtain ⟨fa, c1⟩ := rc
    have hc1 : c1 = c := firstSeq_nochange g fuel c p fa c1 hfull hseq
    subst hc1
    right
    simp only
    rw [commitEvents_append, ← addCells_commit]
    cases haddc : addCells t head fa.1 p with
    | error e => simp only [haddc]
    | ok t1 =>
      simp only [haddc]
      by_cases he : fa.2 = true
      · rw [if_pos he, if_pos he, ← addCells_commit]
        cases haddc2 : addCells t1 head ((alookup f head).getD []) p with
        | error e => simp only [haddc2]
        | ok t2 => simp only [haddc2]
      · rw [if_neg he, if_neg he]
        rfl

/-- Filling all bodies of one head equals replaying their events, or
runs out of fuel. -/
theorem fillHead_commit (g : Grammar) (fuel : Nat) (hwf : GramWF g) (f : FollowCache)
    (head : Char) :
    ∀ (ps : List (List Char)) (t : LL1Tbl) (c : FirstCache),
      cacheFull g c → cacheP g c → (∀ p ∈ ps, SeqDecl g p) →
      fillHead g fuel f head ps t c = .error .fuel ∨
      fillHead g fuel f head ps t c =
        (match commitEvents t (headEvents g fuel c f head ps) with
         | .ok t' => .ok (t', c)
         | .error e => .error e) := by
  intro ps
  induction ps with
  | nil =>
    intro t c _ _ _
    right
    rfl
  | cons p ps ih =>
    intro t c hfull hcP hdecl
    rw [fillHead]
    rcases fillProd_commit g fuel f t c head p hfull with ⟨e, hseq, hfp⟩ | hfp
    · have he : e = .fuel :=
        ((first_sound g hwf fuel).1 c p hcP (hdecl p (List.mem_cons_self _ _))).2 e hseq
      left
      simp only [hfp, he]
    · simp only [hfp]
      rw [headEvents, commitEvents_append]
      cases hce : commitEvents t (prodEvents g fuel c f head p) with
      | error e =>
        right
        simp only [hce]
      | ok t1 =>
        simp only [hce]
        exact ih t1 c hfull hcP (fun q hq => hdecl q (List.mem_cons_of_mem _ hq))

/-- Filling the whole table equals replaying all events, or runs out
of fuel. -/
theorem fillAll_commit (g : Grammar) (fuel : Nat) (hwf : GramWF g) (f : FollowCache) :
    ∀ (es : List (Char × List (List Char))) (t : LL1Tbl) (c : FirstCache),
      cacheFull g c → cacheP g c → (∀ e ∈ es, e ∈ g.productions) →
      fillAll g fuel f es t c = .error .fuel ∨
      fillAll g fuel f es t c =
        (match commitEvents t (allEvents g fuel c f es) with
         | .ok t' => .ok (t', c)
         | .error e => .error e) := by
  intro es
  induction es with
  | nil =>
    intro t c _ _ _
    right
    rfl
  | cons e es ih =>
    intro t c hfull hcP hes
    rw [fillAll]
    rcases fillHead_commit g fuel hwf f e.1 e.2 t c hfull hcP
        (body_decl g hwf e (hes e (List.mem_cons_self _ _))) with hfh | hfh
    · left
      simp only [hfh]
    · simp only [hfh]
      rw [allEvents, commitEvents_append]
      cases hce : commitEvents t (headEvents g fuel c f e.1 e.2) with
      | error err =>
        right
        simp only [hce]
      | ok t1 =>
        simp only [hce]
        exact ih t1 c hfull hcP (fun e' he' => hes e' (List.mem_cons_of_mem _ he'))

/-- Key (row, column) of a cell event. -/
def evKey (e : Char × Char × List Char) : Char × Char := (e.1, e.2.1)

/-- A cell event that passes all `add_cell` `ValueError` guards of a
given table. -/
def EvWF (t : LL1Tbl) (e : Char × Char × List Char) : Prop :=
  e.1 ∈ t.nonTerminals ∧ e.2.1 ∈ t.terminals ∧
  ∀ x ∈ e.2.2, x ∈ t.terminals ∨ x ∈ t.nonTerminals

/-- `add_cell` on a guard-passing event: repeated-cell error on an
occupied cell, successful commit on an empty one. -/
theorem addCell_wf_cases (t : LL1Tbl) (e : Char × Char × List Char) (h : EvWF t e) :
    (∃ b, t.cells e.1 e.2.1 = some b ∧
      ∃ m, addCell t e.1 e.2.1 e.2.2 = .error (.repeatedCell m)) ∨
    (t.cells e.1 e.2.1 = none ∧
      addCell t e.1 e.2.1 e.2.2 = .ok ⟨t.terminals, t.nonTerminals,
        fun a b => if a = e.1 then (if b = e.2.1 then some e.2.2 else t.cells a b)
                   else t.cells a b⟩) := by
  obtain ⟨h1, h2, h3⟩ := h
  unfold addCell
  rw [if_neg (by rw [bmem_iff]; exact fun hc => hc h1)]
  rw [if_neg (by rw [bmem_iff]; exact fun hc => hc h2)]
  rw [if_neg ?hbody]
  case hbody =>
    intro hc
    apply hc
    rw [List.all_eq_true]
    intro x hx
    rcases h3 x hx with h' | h'
    · rw [Bool.or_eq_true]
      exact Or.inl (bmem_iff.mpr h')
    · rw [Bool.or_eq_true]
      exact Or.inr (bmem_iff.mpr h')
  cases hcell : t.cells e.1 e.2.1 with
  | some b => exact Or.inl ⟨b, rfl, _, rfl⟩
  | none => exact Or.inr ⟨rfl, rfl⟩

/-- Cells of the table `add_cell` builds on success. -/
theorem updCells (t : LL1Tbl) (e : Char × Char × List Char) (a b : Char) :
    (LL1Tbl.mk t.terminals t.nonTerminals
      (fun a b => if a = e.1 then (if b = e.2.1 then some e.2.2 else t.cells a b)
                  else t.cells a b)).cells a b =
      if a = e.1 then (if b = e.2.1 then some e.2.2 else t.cells a b) else t.cells a b := rfl

/-- Replaying guard-passing events from any table: success with every
event committed when all targeted cells are empty and the keys are
distinct, a `RepeatedCellError` otherwise. -/
theorem commit_spec :
    ∀ (evs : List (Char × Char × List Char)) (t : LL1Tbl),
      (∀ e ∈ evs, EvWF t e) →
      ( ( (∀ e ∈ evs, t.cells e.1 e.2.1 = none) ∧ (evs.map evKey).Nodup →
          ∃ t', commitEvents t evs = .ok t' ∧
            t'.terminals = t.terminals ∧ t'.nonTerminals = t.nonTerminals ∧
            (∀ e ∈ evs, t'.cells e.1 e.2.1 = some e.2.2) ∧
            (∀ nt ter, (nt, ter) ∉ evs.map evKey → t'.cells nt ter = t.cells nt ter) ) ∧
        ( ((∃ e ∈ evs, t.cells e.1 e.2.1 ≠ none) ∨ ¬ (evs.map evKey).Nodup) →
          ∃ m, commitEvents t evs = .error (.repeatedCell m) ) ) := by
  intro evs
  induction evs with
  | nil =>
    intro t _
    constructor
    · intro _
      refine ⟨t, rfl, rfl, rfl, ?_, ?_⟩
      · intro e he
        cases he
      · intro _ _ _
        rfl
    · rintro (⟨e, he, -⟩ | hnd)
      · cases he
      · exact absurd List.nodup_nil hnd
  | cons e es ih =>
    intro t h
    have hwfe := h e (List.mem_cons_self _ _)
    rcases addCell_wf_cases t e hwfe with ⟨b, hcell, m, hadd⟩ | ⟨hcell, hadd⟩
    · constructor
      · rintro ⟨hnone, -⟩
        have := hnone e (List.mem_cons_self _ _)
        rw [hcell] at this
        cases this
      · intro _
        exact ⟨m, by rw [commitEvents, hadd]⟩
    · set t1 : LL1Tbl := ⟨t.terminals, t.nonTerminals,
        fun a b => if a = e.1 then (if b = e.2.1 then some e.2.2 else t.cells a b)
                   else t.cells a b⟩ with ht1
      have hwfes : ∀ e' ∈ es, EvWF t1 e' :=
        fun e' he' => h e' (List.mem_cons_of_mem _ he')
      have hcom : commitEvents t (e :: es) = commitEvents t1 es := by
        rw [commitEvents, hadd]
      have ht1c : ∀ a b, t1.cells a b =
          if a = e.1 then (if b = e.2.1 then some e.2.2 else t.cells a b) else t.cells a b :=
        fun a b => rfl
      have iht1 := ih t1 hwfes
      constructor
      · rintro ⟨hnone, hnd⟩
        rw [List.map_cons, List.nodup_cons] at hnd
        have hnot : evKey e ∉ es.map evKey := hnd.1
        have hes_none : ∀ e' ∈ es, t1.cells e'.1 e'.2.1 = none := by
          intro e' he'
          have hkey : evKey e' ≠ evKey e := by
            intro hk
            exact hnot (hk ▸ List.mem_map_of_mem evKey he')
          rw [ht1c]
          by_cases ha : e'.1 = e.1
          · by_cases hb : e'.2.1 = e.2.1
            · exfalso
              apply hkey
              unfold evKey
              rw [ha, hb]
            · rw [if_pos ha, if_neg hb]
              exact hnone e' (List.mem_cons_of_mem _ he')
          · rw [if_neg ha]
            exact hnone e' (List.mem_cons_of_mem _ he')
        obtain ⟨t', hct', hter, hnter, hcommitted, hframe⟩ := iht1.1 ⟨hes_none, hnd.2⟩
        refine ⟨t', by rw [hcom]; exact hct', by rw [hter], by rw [hnter], ?_, ?_⟩
        · intro e' he'
          rcases List.mem_cons.mp he' with heq | he''
          · subst heq
            rw [hframe e'.1 e'.2.1 hnot, ht1c, if_pos rfl, if_pos rfl]
          · exact hcommitted e' he''
        · intro nt ter hnt
          have hnotes : (nt, ter) ∉ es.map evKey := by
            intro hc
            exact hnt (by rw [List.map_cons]; exact List.mem_cons_of_mem _ hc)
          have hne : (nt, ter) ≠ evKey e := by
            intro hc
            exact hnt (by rw [List.map_cons, hc]; exact List.mem_cons_self _ _)
          rw [hframe nt ter hnotes, ht1c]
          by_cases ha : nt = e.1
          · by_cases hb : ter = e.2.1
            · exfalso
              apply hne
              unfold evKey
              rw [ha, hb]
            · rw [if_pos ha, if_neg hb]
          · rw [if_neg ha]
      · intro hprem
        have hstep : (∃ e' ∈ es, t1.cells e'.1 e'.2.1 ≠ none) ∨ ¬ (es.map evKey).Nodup := by
          rcases hprem with ⟨e', he', hcell'⟩ | hnd
          · rcases List.mem_cons.mp he' with heq | he''
            · subst heq
              rw [hcell] at hcell'
              exact absurd rfl hcell'
            · left
              refine ⟨e', he'', ?_⟩
              rw [ht1c]
              by_cases ha : e'.1 = e.1
              · by_cases hb : e'.2.1 = e.2.1
                · rw [if_pos ha, if_pos hb]
                  simp
                · rw [if_pos ha, if_neg hb]
                  exact hcell'
              · rw [if_neg ha]
                exact hcell'
          · rw [List.map_cons, List.nodup_cons] at hnd
            push_neg at hnd
            by_cases hin : evKey e ∈ es.map evKey
            · rcases List.mem_map.mp hin with ⟨e', he', hk⟩
              left
              refine ⟨e', he', ?_⟩
              rw [ht1c]
              have ha : e'.1 = e.1 := congrArg (fun q : Char × Char => q.1) hk
              have hb : e'.2.1 = e.2.1 := congrArg (fun q : Char × Char => q.2) hk
              rw [if_pos ha, if_pos hb]
              simp
            · exact Or.inr (hnd hin)
        obtain ⟨m, hm⟩ := iht1.2 hstep
        exact ⟨m, by rw [hcom]; exact hm⟩

/-- Terminals that occur in bodies are columns of the table. -/
theorem mem_computedTerminals (g : Grammar) (hwf : GramWF g) {x : Char}
    (ht : x ∈ g.terminals) (hb : x ∈ bodySyms g) : x ∈ computedTerminals g := by
  unfold computedTerminals
  apply mem_sinsert.mpr
  right
  apply List.mem_filter.mpr
  refine ⟨hb, ?_⟩
  apply decide_eq_true
  intro hc
  exact hwf.1 x ht (bmem_iff.mp hc)

/-- The initial FOLLOW cache is well-formed for any universe holding
the end-marker. -/
theorem followInit_fwfU (g : Grammar) (U : List Char) (hU : '$' ∈ U) :
    FWF g U (followInit g) := by
  refine ⟨?_, ?_, ?_⟩
  · unfold followInit
    rw [List.map_map]
    have hcong : ∀ nt ∈ g.nonTerminals,
        (Prod.fst ∘ fun nt => (nt, if nt = g.axm then ['$'] else [])) nt = id nt :=
      fun _ _ => rfl
    rw [List.map_congr_left hcong, List.map_id]
  · intro e he
    rcases List.mem_map.mp he with ⟨nt, -, rfl⟩
    by_cases h : nt = g.axm
    · simp only [h, if_pos rfl]
      exact List.chain'_singleton '$'
    · simp only [if_neg h]
      exact List.chain'_nil
  · intro e he x hx
    rcases List.mem_map.mp he with ⟨nt, -, rfl⟩
    by_cases h : nt = g.axm
    · rw [if_pos h] at hx
      rcases List.mem_singleton.mp hx with rfl
      exact hU
    · rw [if_neg h] at hx
      cases hx

/-- The fixed-point loop preserves well-formedness (any admissible
universe). -/
theorem followLoop_fwf (g : Grammar) (c : FirstCache) (U : List Char) (hwf : GramWF g)
    (hcacheU : ∀ e ∈ c, ∀ x ∈ e.2.1, x ∈ U)
    (hbodyU : ∀ e ∈ g.productions, ∀ p ∈ e.2, ∀ x ∈ p, x ∉ g.nonTerminals → x ∈ U) :
    ∀ (fuel : Nat) (f : FollowCache), FWF g U f → FWF g U (followLoop g c fuel f) := by
  intro fuel
  induction fuel with
  | zero => intro f hf; exact hf
  | succ n ih =>
    intro f hf
    rw [followLoop_succ]
    have hstep := onePass_stepokU g c U hwf hcacheU hbodyU f hf
    by_cases hch : (onePass g c f).2 = true
    · rw [if_pos hch]
      exact ih _ hstep.1
    · rw [if_neg hch]
      exact hstep.1

/-- Membership decomposition for the event list. -/
theorem mem_allEvents (g : Grammar) (fuel : Nat) (c : FirstCache) (f : FollowCache) :
    ∀ (es : List (Char × List (List Char))) (e : Char × Char × List Char),
      e ∈ allEvents g fuel c f es →
      ∃ pe ∈ es, ∃ p ∈ pe.2, e ∈ prodEvents g fuel c f pe.1 p := by
  intro es
  induction es with
  | nil => intro e he; cases he
  | cons pe es ih =>
    intro e he
    rw [allEvents] at he
    rcases List.mem_append.mp he with he' | he'
    · -- within headEvents of pe
      have hh : ∀ (ps : List (List Char)), e ∈ headEvents g fuel c f pe.1 ps →
          ∃ p ∈ ps, e ∈ prodEvents g fuel c f pe.1 p := by
        intro ps
        induction ps with
        | nil => intro hc; cases hc
        | cons p ps ihp =>
          intro hc
          rw [headEvents] at hc
          rcases List.mem_append.mp hc with hc' | hc'
          · exact ⟨p, List.mem_cons_self _ _, hc'⟩
          · rcases ihp hc' with ⟨q, hq, hqe⟩
            exact ⟨q, List.mem_cons_of_mem _ hq, hqe⟩
      rcases hh pe.2 he' with ⟨p, hp, hpe⟩
      exact ⟨pe, List.mem_cons_self _ _, p, hp, hpe⟩
    · rcases ih e he' with ⟨pe', hpe', p, hp, hpev⟩
      exact ⟨pe', List.mem_cons_of_mem _ hpe', p, hp, hpev⟩

/-- Every event generated on the stable caches passes the `add_cell`
guards of the fresh table. -/
theorem events_wf (g : Grammar) (fuel : Nat) (hwf : GramWF g) (c : FirstCache)
    (f : FollowCache) (hcP : cacheP g c)
    (hffwf : FWF g (computedTerminals g) f)
    (pe : Char × List (List Char)) (hpe : pe ∈ g.productions)
    (p : List Char) (hp : p ∈ pe.2)
    (e : Char × Char × List Char) (he : e ∈ prodEvents g fuel c f pe.1 p) :
    EvWF ⟨computedTerminals g, g.nonTerminals, fun _ _ => none⟩ e := by
  have hdecl : SeqDecl g p := body_decl g hwf pe hpe p hp
  have hbody : ∀ x ∈ p, x ∈ computedTerminals g ∨ x ∈ g.nonTerminals := by
    intro x hx
    rcases hdecl x hx with h' | h'
    · exact Or.inl (mem_computedTerminals g hwf h'.1 h'.2)
    · exact Or.inr h'
  unfold prodEvents at he
  cases hseq : firstSeq g fuel c p with
  | error err => rw [hseq] at he; cases he
  | ok rc =>
    obtain ⟨fa, c1⟩ := rc
    rw [hseq] at he
    have hsound := ((first_sound g hwf fuel).1 c p hcP hdecl).1 fa c1 hseq
    rcases List.mem_append.mp he with he' | he'
    · rcases List.mem_map.mp he' with ⟨t, hta, rfl⟩
      refine ⟨hwf.2.2.1 pe hpe, ?_, hbody⟩
      exact mem_computedTerminals g hwf (hsound.2 t hta).1 (hsound.2 t hta).2
    · by_cases hfa2 : fa.2 = true
      · rw [if_pos hfa2] at he'
        rcases List.mem_map.mp he' with ⟨t, hta, rfl⟩
        refine ⟨hwf.2.2.1 pe hpe, ?_, hbody⟩
        cases hl : alookup f pe.1 with
        | none => rw [hl] at hta; cases hta
        | some w =>
          rw [hl] at hta
          exact hffwf.2.2 (pe.1, w) (alookup_mem hl) t hta
      · rw [if_neg hfa2] at he'
        cases he'

/-- C3: on a validated grammar (with the reserved end-marker not
declared as a symbol), `get_ll1_table` has exactly two outcomes beside
divergence, decided by whether two cell assignments of the
construction target the same (non-terminal, terminal) cell: on such a
conflict it returns the rejection signal `None`, and otherwise it
returns a table in which every FIRST- and FOLLOW-derived assignment is
committed.  In particular no `RepeatedCellError` (nor any other
exception) ever reaches the caller. -/
theorem get_ll1_table_outcomes (g : Grammar) (fuel : Nat) (hwf : GramWF g)
    (hdN : '$' ∉ g.nonTerminals) :
    getLL1Table g fuel = .error .fuel ∨
    (¬ ((cellEvents g fuel).map evKey).Nodup ∧ getLL1Table g fuel = .ok none) ∨
    (((cellEvents g fuel).map evKey).Nodup ∧
      ∃ tbl, getLL1Table g fuel = .ok (some tbl) ∧
        ∀ e ∈ cellEvents g fuel, tbl.cells e.1 e.2.1 = some e.2.2) := by
  have hcP0 : cacheP g ([] : FirstCache) := fun e he => absurd he (List.not_mem_nil e)
  unfold getLL1Table
  cases hfal : followAllLoop g fuel g.nonTerminals []
      (g.nonTerminals.map (fun nt => (nt, []))) with
  | error e =>
    left
    have he : e = .fuel :=
      followAllLoop_err g fuel hwf g.nonTerminals [] _ (fun _ hx => hx) hcP0 e hfal
    simp only [hfal, he]
  | ok fc =>
    obtain ⟨f, c⟩ := fc
    have hev : cellEvents g fuel = allEvents g fuel c f g.productions := by
      unfold cellEvents
      rw [hfal]
    have hnts_ne : g.nonTerminals ≠ [] := by
      intro hc
      have := hwf.2.1
      rw [hc] at this
      cases this
    rcases followAllLoop_spec g fuel g.nonTerminals [] _ f c (fun _ hx => hx) hfal with
      ⟨hnil, -, -⟩ | ⟨cp, hfill, hfloop⟩
    · exact absurd hnil hnts_ne
    have hcPc : cacheP g c :=
      followAllLoop_cacheP g fuel hwf g.nonTerminals [] _ f c (fun _ hx => hx) hcP0 hfal
    have hfullc : cacheFull g c := fun nt hnt =>
      fillFirstAll_full g fuel hwf g.nonTerminals cp c (fun _ hx => hx) hfill nt hnt
    have hffwf : FWF g (computedTerminals g) f := by
      rw [hfloop]
      apply followLoop_fwf g c (computedTerminals g) hwf
      · intro e he x hx
        exact mem_computedTerminals g hwf (hcPc e he x hx).1 (hcPc e he x hx).2
      · intro e he p hp x hx hxn
        rcases body_decl g hwf e he p hp x hx with h' | h'
        · exact mem_computedTerminals g hwf h'.1 h'.2
        · exact absurd h' hxn
      · exact followInit_fwfU g _ (mem_sinsert.mpr (Or.inl rfl))
    set t0 : LL1Tbl := ⟨computedTerminals g, g.nonTerminals, fun _ _ => none⟩ with ht0
    have hmk : mkLL1Tbl g.nonTerminals (computedTerminals g) = .ok t0 := by
      unfold mkLL1Tbl
      rw [if_neg ?hdisj]
      case hdisj =>
        intro hc
        rcases List.any_eq_true.mp hc with ⟨x, hx, hb⟩
        unfold computedTerminals at hx
        rcases mem_sinsert.mp hx with rfl | hx'
        · exact hdN (bmem_iff.mp hb)
        · have := List.mem_filter.mp hx'
          exact (of_decide_eq_true this.2) hb
    have hewf : ∀ e ∈ allEvents g fuel c f g.productions, EvWF t0 e := by
      intro e he
      rcases mem_allEvents g fuel c f g.productions e he with ⟨pe, hpe, p, hp, hpev⟩
      exact events_wf g fuel hwf c f hcPc hffwf pe hpe p hp e hpev
    have ht0none : ∀ e ∈ allEvents g fuel c f g.productions,
        t0.cells e.1 e.2.1 = none := fun _ _ => rfl
    simp only [hfal, hmk]
    rcases fillAll_commit g fuel hwf f g.productions t0 c hfullc hcPc (fun _ he => he) with
      hfa | hfa
    · left
      simp only [hfa]
    · cases hce : commitEvents t0 (allEvents g fuel c f g.productions) with
      | error err =>
        by_cases hnd : ((allEvents g fuel c f g.productions).map evKey).Nodup
        · exfalso
          obtain ⟨t', hct', -, -, -, -⟩ := (commit_spec _ t0 hewf).1 ⟨ht0none, hnd⟩
          rw [hce] at hct'
          cases hct'
        · obtain ⟨m, hm⟩ := (commit_spec _ t0 hewf).2 (Or.inr hnd)
          rw [hce] at hm
          have herr : err = .repeatedCell m := Except.error.inj hm
          right
          left
          constructor
          · rw [hev]
            exact hnd
          · rw [hfa, hce, herr]
      | ok tfin =>
        by_cases hnd : ((allEvents g fuel c f g.productions).map evKey).Nodup
        · obtain ⟨t', hct', -, -, hcommitted, -⟩ := (commit_spec _ t0 hewf).1 ⟨ht0none, hnd⟩
          rw [hce] at hct'
          have htfin : tfin = t' := Except.ok.inj hct'
          right
          right
          constructor
          · rw [hev]
            exact hnd
          · refine ⟨tfin, ?_, ?_⟩
            · rw [hfa, hce]
            · intro e he
              rw [hev] at he
              rw [htfin]
              exact hcommitted e he
        · obtain ⟨m, hm⟩ := (commit_spec _ t0 hewf).2 (Or.inr hnd)
          rw [hce] at hm
          cases hm

/-- Witness for C3 at the demo grammar. -/
theorem get_ll1_table_outcomes_witness :
    GramWF gDemo ∧ '$' ∉ gDemo.nonTerminals ∧
    (getLL1Table gDemo 30 = .error .fuel ∨
      (¬ ((cellEvents gDemo 30).map evKey).Nodup ∧ getLL1Table gDemo 30 = .ok none) ∨
      (((cellEvents gDemo 30).map evKey).Nodup ∧
        ∃ tbl, getLL1Table gDemo 30 = .ok (some tbl) ∧
          ∀ e ∈ cellEvents gDemo 30, tbl.cells e.1 e.2.1 = some e.2.2)) :=
  ⟨by decide, by decide, get_ll1_table_outcomes gDemo 30 (by decide) (by decide)⟩
